import Mathlib

/-!
Shallow embedding of the banzaicloud cluster-recommender engine
(package `recommender`, plus the attribute-range selection helper).

Conventions of the embedding:
* Go `float64` is modelled as `ℚ`; Go `int` as `ℤ` (loop counters as `ℕ`).
  Division by zero yields `0` in `ℚ` (Go would produce `Inf`/`NaN`); every
  theorem that depends on a quotient carries positivity hypotheses on the
  divisor, so the two semantics agree on the inputs the theorems speak about.
* Go `int(math.Ceil x)` is `⌈x⌉`; Go's truncating `int(x)` conversion is
  `goTrunc`.
* The unbounded `for` loop of `fillSpotNodePools` takes an explicit fuel
  argument and returns `Option`; `none` models non-termination within the
  fuel as well as the runtime panics (index out of range, `idx % 0`).
* Go's `sort.Sort` (an unstable sort) is modelled by `List.insertionSort`,
  i.e. one particular sorted permutation of the input.
* Go maps iterated by `range` have an unspecified order; functions that
  range over a map take the iteration order as an explicit list.
-/

/-- The `regular` vm class constant. -/
def regular : String := "regular"

/-- The `ondemand` vm class constant (an accepted alias of `regular`). -/
def ondemand : String := "ondemand"

/-- The `spot` vm class constant. -/
def spot : String := "spot"

/-- The memory attribute name. -/
def Memory : String := "memory"

/-- The cpu attribute name. -/
def Cpu : String := "cpu"

/-- `VirtualMachine` from the engine: an instance type reduced for one
recommendation. -/
structure VirtualMachine where
  type : String
  avgPrice : ℚ
  onDemandPrice : ℚ
  cpus : ℚ
  mem : ℚ
  gpus : ℚ
  burst : Bool
  networkPerf : String
  networkPerfCat : String
  currentGen : Bool
deriving DecidableEq, Repr, Inhabited

/-- `NodePool`: a set of instances of one vm type with a purchase class. -/
structure NodePool where
  vmType : VirtualMachine
  sumNodes : ℤ
  vmClass : String
deriving DecidableEq, Repr, Inhabited

/-- `NodePoolDesc`: one pool of the existing layout in a scale-out request. -/
structure NodePoolDesc where
  instanceType : String
  vmClass : String
  sumNodes : ℤ
deriving DecidableEq, Repr, Inhabited

/-- `ClusterRecommendationReq`: the standard recommendation request. -/
structure ClusterRecommendationReq where
  sumCpu : ℚ
  sumMem : ℚ
  minNodes : ℤ
  maxNodes : ℤ
  sameSize : Bool
  onDemandPct : ℤ
  zones : List String
  sumGpu : ℤ
  allowBurst : Option Bool
  networkPerf : Option String
  excludes : List String
  includes : List String
  allowOlderGen : Option Bool
deriving DecidableEq, Repr, Inhabited

/-- `VirtualMachine.getAttrValue`: the vm's value of an anchor attribute. -/
def VirtualMachine.getAttrValue (v : VirtualMachine) (attr : String) : ℚ :=
  if attr = Cpu then v.cpus
  else if attr = Memory then v.mem
  else 0

/-- `NodePoolDesc.getVmClass`: normalises the declared vm class. -/
def NodePoolDesc.getVmClass (n : NodePoolDesc) : String :=
  if n.vmClass = regular ∨ n.vmClass = spot then n.vmClass
  else if n.vmClass = ondemand then regular
  else spot

/-- `NodePool.getSum`: total attribute value carried by the pool. -/
def NodePool.getSum (n : NodePool) (attr : String) : ℚ :=
  (n.sumNodes : ℚ) * n.vmType.getAttrValue attr

/-- `NodePool.getNextSum`: total attribute value if one node were added. -/
def NodePool.getNextSum (n : NodePool) (attr : String) : ℚ :=
  n.getSum attr + n.vmType.getAttrValue attr

/-- `NodePool.poolPrice`: price of the pool (on-demand price for regular
pools, zone-averaged spot price for spot pools, 0 for any other class). -/
def NodePool.poolPrice (n : NodePool) : ℚ :=
  if n.vmClass = regular then (n.sumNodes : ℚ) * n.vmType.onDemandPrice
  else if n.vmClass = spot then (n.sumNodes : ℚ) * n.vmType.avgPrice
  else 0

/-- `contains` from the engine: string membership in a slice. -/
def containsStr (slice : List String) (s : String) : Bool :=
  slice.any (fun e => e = s)

/-- Go's truncating float-to-int conversion (rounds toward zero). -/
def goTrunc (q : ℚ) : ℤ :=
  if q < 0 then ⌈q⌉ else ⌊q⌋

/-- `models.ZonePrice`: a spot price observed in one availability zone. -/
structure ZonePrice where
  zone : String
  price : ℚ
deriving DecidableEq, Repr, Inhabited

/-- `avg`: zone-averaged spot price of one product.  Sums the prices of the
entries whose zone occurs in the request's zone list (once per occurrence)
and divides by the number of all spot-price entries of the product. -/
def avg (prices : List ZonePrice) (recZones : List String) : ℚ :=
  if prices.length = 0 then 0
  else
    (prices.foldl
      (fun acc price =>
        recZones.foldl (fun a z => if z = price.zone then a + price.price else a) acc)
      0) / (prices.length : ℚ)

/-- Error outcomes of `findValuesBetween`. -/
inductive AttrRangeError where
  | emptyDomain
  | invertedRange
deriving DecidableEq, Repr

/-- The error strings returned by `findValuesBetween`. -/
def AttrRangeError.message : AttrRangeError → String
  | .emptyDomain => "no attribute values provided"
  | .invertedRange => "min value cannot be larger than the max value"

/-- `findValuesBetween`: attribute-range selection.  Rejects an empty domain
and an inverted window, sorts the domain ascending, falls back to the
nearest boundary value when the window lies entirely outside the domain and
otherwise keeps the values inside the window. -/
def findValuesBetween (attrValues : List ℚ) (lo hi : ℚ) :
    Except AttrRangeError (List ℚ) :=
  if attrValues.length = 0 then .error .emptyDomain
  else if lo > hi then .error .invertedRange
  else
    let sorted := attrValues.insertionSort (· ≤ ·)
    if hi < sorted.headI then .ok [sorted.headI]
    else if lo > sorted.getLastD 0 then .ok [sorted.getLastD 0]
    else .ok (sorted.filter (fun v => lo ≤ v ∧ v ≤ hi))

/-- The type of vm filters: `func(vm VirtualMachine, req ClusterRecommendationReq) bool`. -/
def VmFilter : Type :=
  VirtualMachine → ClusterRecommendationReq → Bool

/-- `minMemRatioFilter`: memory-per-cpu of the vm at least `sumMem / sumCpu`. -/
def minMemRatioFilter : VmFilter := fun vm req =>
  ¬ (vm.mem / vm.cpus < req.sumMem / req.sumCpu)

/-- `minCpuRatioFilter`: cpu-per-memory of the vm at least `sumCpu / sumMem`. -/
def minCpuRatioFilter : VmFilter := fun vm req =>
  ¬ (vm.cpus / vm.mem < req.sumCpu / req.sumMem)

/-- `burstFilter`: rejects burst vms only when burst is explicitly disallowed. -/
def burstFilter : VmFilter := fun vm req =>
  match req.allowBurst with
  | none => true
  | some b => if b then true else ¬ vm.burst

/-- `ntwPerformanceFilter`: passes when no category is requested or the vm
matches the requested one. -/
def ntwPerformanceFilter : VmFilter := fun vm req =>
  match req.networkPerf with
  | none => true
  | some p => vm.networkPerf = p

/-- `excludesFilter`: passes unless the vm type is blacklisted. -/
def excludesFilter : VmFilter := fun vm req =>
  if req.excludes.length = 0 then true
  else ¬ containsStr req.excludes vm.type

/-- `includesFilter`: passes when the whitelist is empty or lists the type. -/
def includesFilter : VmFilter := fun vm req =>
  if req.includes.length = 0 then true
  else containsStr req.includes vm.type

/-- `filtersApply`: conjunction of all filters on one vm. -/
def filtersApply (vm : VirtualMachine) (filters : List VmFilter)
    (req : ClusterRecommendationReq) : Bool :=
  filters.all (fun f => f vm req)

/-- `filterSpots`: keeps the vms with a non-zero zone-averaged spot price. -/
def filterSpots (vms : List VirtualMachine) : List VirtualMachine :=
  vms.filter (fun vm => vm.avgPrice ≠ 0)

/-- `filtersForAttr`: generic filters, then the provider-specific ones
(passed opaquely, since `currentGenFilter` has no body in the sources),
then the attribute-specific ratio filter. -/
def filtersForAttr (attr : String) (providerFilters : List VmFilter) :
    Option (List VmFilter) :=
  if attr = Cpu then
    some ([includesFilter, excludesFilter] ++ providerFilters ++ [minMemRatioFilter])
  else if attr = Memory then
    some ([includesFilter, excludesFilter] ++ providerFilters ++ [minCpuRatioFilter])
  else none

/-- `RecommendVms`: filters the candidate vms and splits them into on-demand
and spot candidate lists (identical when no layout is given, matched against
the layout's pools otherwise); when some spot share is requested the spot
list keeps only vms actually offered as spot. -/
def RecommendVms (vms : List VirtualMachine) (filters : List VmFilter)
    (req : ClusterRecommendationReq) (layout : Option (List NodePool)) :
    List VirtualMachine × List VirtualMachine :=
  let filteredVms := vms.filter (fun vm => filtersApply vm filters req)
  if filteredVms.length = 0 then ([], [])
  else
    let (odVms, spotVms) :=
      match layout with
      | none => (filteredVms, filteredVms)
      | some l =>
        l.foldl
          (fun acc np =>
            filteredVms.foldl
              (fun acc2 vm =>
                if np.vmType.type = vm.type then
                  if np.vmClass = regular then (acc2.1 ++ [vm], acc2.2)
                  else (acc2.1, acc2.2 ++ [vm])
                else acc2)
              acc)
          ([], [])
    if req.onDemandPct < 100 then
      let spotVms2 := filterSpots spotVms
      if spotVms2.length = 0 then ([], []) else (odVms, spotVms2)
    else (odVms, spotVms)

/-- `avgSpotNodeCount`: rounded-up average of the spot node count window. -/
def avgSpotNodeCount (minNodes maxNodes odNodes : ℤ) : ℤ :=
  let count : ℚ := ((minNodes - odNodes + maxNodes - odNodes : ℤ) : ℚ) / 2
  let spotCount := ⌈count⌉
  if spotCount < 0 then 0 else spotCount

/-- `findN`: the diversification bucket function. -/
def findN (avgCount : ℤ) : ℤ :=
  if avgCount ≤ 4 then avgCount
  else if avgCount ≤ 8 then 4
  else if avgCount ≤ 15 then 5
  else if avgCount ≤ 24 then 6
  else if avgCount ≤ 35 then 7
  else 8

/-- `findM`: the number of spot pools materialised for `N` active ones. -/
def findM (N : ℤ) (spotVmsLen : ℕ) : ℤ :=
  if N > 0 then min ⌈(N : ℚ) * (3 / 2)⌉ (spotVmsLen : ℤ)
  else min 3 (spotVmsLen : ℤ)

/-- `findNWithLayout`: the fill width in scale-out mode. -/
def findNWithLayout (nonZeroNps : ℕ) (vmOptions : ℕ) : ℕ :=
  if nonZeroNps = 0 then 1
  else if nonZeroNps < vmOptions then nonZeroNps
  else vmOptions

/-- The ascending price-per-attribute order used by `sortByAttrValue`
(`ByAvgPricePerCpu` / `ByAvgPricePerMemory`). -/
def byAvgPricePerAttr (attr : String) (a b : VirtualMachine) : Prop :=
  a.avgPrice / a.getAttrValue attr ≤ b.avgPrice / b.getAttrValue attr

instance (attr : String) : DecidableRel (byAvgPricePerAttr attr) := by
  intro a b
  unfold byAvgPricePerAttr
  infer_instance

/-- `sortByAttrValue`: sorts the vms ascending by price per attribute value
(one sorted permutation; Go's `sort.Sort` is unstable). -/
def sortByAttrValue (attr : String) (vms : List VirtualMachine) :
    List VirtualMachine :=
  vms.insertionSort (byAvgPricePerAttr attr)

/-- The state of the spot fill loop: the pools, the accumulated
`sumValueInPools` and the running index `idx`. -/
structure FillState where
  pools : List NodePool
  sum : ℚ
  idx : ℕ
deriving Repr

/-- The initial scan of `fillSpotNodePools`: accumulates the attribute sum
of the first `N` pools and locates the index of the smallest one.  Returns
`none` when `N` exceeds the number of pools (a Go index panic).  The state
is `(sumValueInPools, minValue, minIndex)`. -/
def fillInit (attr : String) (nps : List NodePool) : ℕ → Option (ℚ × ℚ × ℕ)
  | 0 => some (0, 0, 0)
  | n + 1 =>
    match fillInit attr nps n with
    | none => none
    | some (s, minV, minI) =>
      match nps.get? n with
      | none => none
      | some p =>
        let v := p.getSum attr
        if n = 0 then some (s + v, v, n)
        else if v < minV then some (s + v, v, n)
        else some (s + v, minV, minI)

/-- One iteration of the fill loop body. -/
def fillStep (attr : String) (N minIndex : ℕ) (st : FillState) :
    Option FillState :=
  let k := st.idx % N
  match st.pools.get? k with
  | none => none
  | some p =>
    if k = minIndex then
      some ⟨st.pools.set k { p with sumNodes := p.sumNodes + 1 },
            st.sum + p.vmType.getAttrValue attr, st.idx + 1⟩
    else
      match st.pools.get? minIndex with
      | none => none
      | some pm =>
        if p.getNextSum attr > pm.getSum attr then
          some ⟨st.pools, st.sum, st.idx + 1⟩
        else
          some ⟨st.pools.set k { p with sumNodes := p.sumNodes + 1 },
                st.sum + p.vmType.getAttrValue attr, st.idx⟩

/-- The fill loop: repeats `fillStep` while `sumValueInPools` is below the
desired total; `none` models fuel exhaustion and the `idx % 0` panic. -/
def fillLoop (attr : String) (N minIndex : ℕ) (desired : ℚ) :
    ℕ → FillState → Option FillState
  | 0, st => if st.sum < desired then none else some st
  | fuel + 1, st =>
    if st.sum < desired then
      if N = 0 then none
      else
        match fillStep attr N minIndex st with
        | none => none
        | some st2 => fillLoop attr N minIndex desired fuel st2
    else some st

/-- `fillSpotNodePools`: distributes the required spot attribute total over
the first `N` pools, always growing the smallest pool. -/
def fillSpotNodePools (fuel : ℕ) (sumSpotValue : ℚ) (N : ℕ)
    (nps : List NodePool) (attr : String) : Option (List NodePool) :=
  match fillInit attr nps N with
  | none => none
  | some (s, _minV, minIndex) =>
    let desired := s + sumSpotValue
    match fillLoop attr N minIndex desired fuel ⟨nps, s, minIndex⟩ with
    | none => none
    | some st => some st.pools

/-- Selecting the cheapest on-demand candidate by price per attribute value
(the linear scan at the top of `RecommendNodePools`). -/
def selectOnDemand (attr : String) (v0 : VirtualMachine)
    (odVms : List VirtualMachine) : VirtualMachine :=
  odVms.foldl
    (fun sel vm =>
      if vm.onDemandPrice / vm.getAttrValue attr <
          sel.onDemandPrice / sel.getAttrValue attr then vm else sel)
    v0

/-- `req.sum attr`: the requested total of the anchor attribute. -/
def ClusterRecommendationReq.sum (req : ClusterRecommendationReq)
    (attr : String) : ℚ :=
  if attr = Cpu then req.sumCpu
  else if attr = Memory then req.sumMem
  else 0

/-- The descending `sumNodes` order used by `ByNonZeroNodePools`. -/
def byNonZeroNodePools (a b : NodePool) : Prop :=
  b.sumNodes ≤ a.sumNodes

instance : DecidableRel byNonZeroNodePools := by
  intro a b
  unfold byNonZeroNodePools
  infer_instance

/-- The scan over the (descending-sorted) layout in the scale-out branch of
`RecommendNodePools`: counts the spot pools with a positive node count and
partitions the spot pools into kept ones (type among the spot candidates)
and excluded ones.  Returns `(nonZeroNPs, keptSpotNps, excludedSpotNps)`. -/
def spotLayoutScan (layout : List NodePool) (spotVms : List VirtualMachine) :
    ℕ × List NodePool × List NodePool :=
  layout.foldl
    (fun acc np =>
      if np.vmClass = spot then
        let nz := if np.sumNodes > 0 then acc.1 + 1 else acc.1
        if spotVms.any (fun vm => np.vmType.type = vm.type) then
          (nz, acc.2.1 ++ [np], acc.2.2)
        else
          (nz, acc.2.1, acc.2.2 ++ [np])
      else acc)
    (0, [], [])

/-- `RecommendNodePools`: builds the on-demand pool (ceiling division of the
requested on-demand share by the cheapest candidate's attribute value),
seeds the spot pools and runs the fill loop.  `none` models a panicking or
non-terminating fill. -/
def RecommendNodePools (fuel : ℕ) (attr : String)
    (odVms spotVms : List VirtualMachine) (req : ClusterRecommendationReq)
    (layout : Option (List NodePool)) : Option (List NodePool) :=
  let sumOnDemandValue := req.sum attr * (req.onDemandPct : ℚ) / 100
  let odNpsBase : List NodePool :=
    (layout.getD []).filter (fun np => np.vmClass = regular)
  let (odNps, odNodesToAdd, actualOnDemandResources) :
      List NodePool × ℤ × ℚ :=
    match odVms with
    | [] => (odNpsBase, 0, 0)
    | v0 :: _ =>
      let selectedOnDemand := selectOnDemand attr v0 odVms
      let odNodesToAdd : ℤ :=
        ⌈sumOnDemandValue / selectedOnDemand.getAttrValue attr⌉
      let odNps :=
        match layout with
        | none =>
          odNpsBase ++
            [⟨selectedOnDemand, odNodesToAdd, regular⟩]
        | some _ =>
          odNpsBase.map
            (fun np =>
              if np.vmType.type = selectedOnDemand.type then
                { np with sumNodes := np.sumNodes + odNodesToAdd }
              else np)
      (odNps, odNodesToAdd,
        selectedOnDemand.getAttrValue attr * (odNodesToAdd : ℚ))
  let sumSpotValue := req.sum attr - actualOnDemandResources
  let sortedSpotVms := sortByAttrValue attr spotVms
  let (spotSeeds, excludedSpotNps, N) :
      List NodePool × List NodePool × ℕ :=
    match layout with
    | none =>
      let N : ℤ :=
        min (findN (avgSpotNodeCount req.minNodes req.maxNodes odNodesToAdd))
          (spotVms.length : ℤ)
      let M := findM N spotVms.length
      let recommendedVms := sortedSpotVms.take M.toNat
      (recommendedVms.map (fun vm => ⟨vm, 0, spot⟩), [], N.toNat)
    | some l =>
      let sortedLayout := l.insertionSort byNonZeroNodePools
      let (nonZeroNPs, kept, excluded) := spotLayoutScan sortedLayout sortedSpotVms
      (kept, excluded, findNWithLayout nonZeroNPs spotVms.length)
  match fillSpotNodePools fuel sumSpotValue N spotSeeds attr with
  | none => none
  | some spotNps => some (odNps ++ (spotNps ++ excludedSpotNps))

/-- The total price of one plan, as summed by `findCheapestNodePoolSet`. -/
def planPrice (nps : List NodePool) : ℚ :=
  (nps.map (fun np => np.poolPrice)).sum

/-- `findCheapestNodePoolSet`: scans the per-attribute plans in the given
iteration order and keeps the plan whose total price beats the running best;
a running best price of `0` counts as unset. -/
def findCheapestNodePoolSet (nodePoolSets : List (String × List NodePool)) :
    List NodePool :=
  (nodePoolSets.foldl
    (fun acc entry =>
      let sumPrice := planPrice entry.2
      if acc.2 = 0 ∨ acc.2 > sumPrice then (entry.2, sumPrice) else acc)
    ([], 0)).1

/-- The total attribute value of one plan. -/
def planAttrSum (nps : List NodePool) (attr : String) : ℚ :=
  (nps.map (fun np => np.getSum attr)).sum

/-- The per-anchor body of `RecommendCluster` for a standard request (no
layout): candidate selection, the empty-candidate guard, the oracle
on-demand override, then `RecommendNodePools`.  Returns the possibly
mutated request together with the optional plan; `some none` inside the
pair marks the `continue` branch (anchor skipped), `none` as a whole marks
a crash of the fill loop. -/
def clusterStep (fuel : ℕ) (provider : String)
    (providerFilters : List VmFilter) (attr : String)
    (vmsInRange : List VirtualMachine) (req : ClusterRecommendationReq) :
    Option (ClusterRecommendationReq × Option (List NodePool)) :=
  match filtersForAttr attr providerFilters with
  | none => some (req, none)
  | some vmFilters =>
    let (odVms, spotVms) := RecommendVms vmsInRange vmFilters req none
    if (odVms.length = 0 ∧ req.onDemandPct > 0) ∨
        (spotVms.length = 0 ∧ req.onDemandPct < 100) then
      some (req, none)
    else
      let req2 := if provider = "oracle" then { req with onDemandPct := 100 } else req
      match RecommendNodePools fuel attr odVms spotVms req2 none with
      | none => none
      | some nps => some (req2, some nps)

/-- `RecommendCluster` for a standard request (layout absent), starting from
the vms found in range for each anchor attribute: runs the per-anchor body
for cpu then memory (the deterministic attribute order), collects the
successful plans and picks the cheapest set. -/
def RecommendClusterStd (fuel : ℕ) (provider : String)
    (providerFilters : List VmFilter)
    (cpuVms memVms : List VirtualMachine) (req : ClusterRecommendationReq) :
    Option (List NodePool) :=
  match clusterStep fuel provider providerFilters Cpu cpuVms req with
  | none => none
  | some (req2, cpuPlan) =>
    match clusterStep fuel provider providerFilters Memory memVms req2 with
    | none => none
    | some (_, memPlan) =>
      let nodePools :=
        (match cpuPlan with | none => [] | some p => [(Cpu, p)]) ++
        (match memPlan with | none => [] | some p => [(Memory, p)])
      if nodePools.length = 0 then none
      else some (findCheapestNodePoolSet nodePools)

/-- Error outcomes of `computeScaleoutResources`. -/
inductive ScaleoutError where
  | enoughCpu
  | enoughMem
  | infeasibleOdRatio
deriving DecidableEq, Repr

/-- Total cpu capacity of a layout. -/
def currentCpuTotal (layout : List NodePool) : ℚ :=
  (layout.map (fun np => (np.sumNodes : ℚ) * np.vmType.cpus)).sum

/-- Total memory capacity of a layout. -/
def currentMemTotal (layout : List NodePool) : ℚ :=
  (layout.map (fun np => (np.sumNodes : ℚ) * np.vmType.mem)).sum

/-- Cpu capacity of the regular pools of a layout. -/
def currentOdCpuTotal (layout : List NodePool) : ℚ :=
  ((layout.filter (fun np => np.vmClass = regular)).map
    (fun np => (np.sumNodes : ℚ) * np.vmType.cpus)).sum

/-- Memory capacity of the regular pools of a layout. -/
def currentOdMemTotal (layout : List NodePool) : ℚ :=
  ((layout.filter (fun np => np.vmClass = regular)).map
    (fun np => (np.sumNodes : ℚ) * np.vmType.mem)).sum

/-- `computeScaleoutResources`: converts desired totals plus the current
layout into the per-anchor scale-out deltas and on-demand percentage.
Returns `(sumCpu, sumMem, onDemandPct, error)`. -/
def computeScaleoutResources (layout : List NodePool) (attr : String)
    (desiredCpu desiredMem : ℚ) (desiredOdPct : ℤ) :
    ℚ × ℚ × ℤ × Option ScaleoutError :=
  let scaleoutCpu := desiredCpu - currentCpuTotal layout
  let scaleoutMem := desiredMem - currentMemTotal layout
  if scaleoutCpu < 0 ∧ scaleoutMem < 0 then (scaleoutCpu, scaleoutMem, 0, none)
  else
    let odPctResult : ℤ ⊕ ScaleoutError :=
      if attr = Cpu then
        if scaleoutCpu < 0 then .inr .enoughCpu
        else
          let desiredOdCpu := desiredCpu * (desiredOdPct : ℚ) / 100
          let scaleoutOdCpu := desiredOdCpu - currentOdCpuTotal layout
          .inl (goTrunc (scaleoutOdCpu / scaleoutCpu * 100))
      else if attr = Memory then
        if scaleoutMem < 0 then .inr .enoughMem
        else
          let desiredOdMem := desiredMem * (desiredOdPct : ℚ) / 100
          let scaleoutOdMem := desiredOdMem - currentOdMemTotal layout
          .inl (goTrunc (scaleoutOdMem / scaleoutMem * 100))
      else .inl 0
    match odPctResult with
    | .inr e => (0, 0, 0, some e)
    | .inl scaleoutOdPct =>
      if scaleoutOdPct > 100 then (0, 0, 0, some .infeasibleOdRatio)
      else if scaleoutOdPct < 0 then (scaleoutCpu, scaleoutMem, 0, none)
      else (scaleoutCpu, scaleoutMem, scaleoutOdPct, none)

/-- Outcome of one per-anchor pass of `RecommendCluster`'s scale-out guard:
either the request fails as already satisfied, or the anchor is skipped
(`continue` on an error of `computeScaleoutResources`), or the loop
proceeds with the updated request fields. -/
inductive ScaleoutGuardResult where
  | alreadySatisfied
  | skipAnchor
  | proceed (sumCpu sumMem : ℚ) (onDemandPct : ℤ)
deriving DecidableEq, Repr

/-- The scale-out guard of `RecommendCluster`: runs
`computeScaleoutResources` for one anchor, skips the anchor on an error and
fails with the already-satisfied error exactly when both assigned sums are
negative. -/
def scaleoutGuard (layout : List NodePool) (attr : String)
    (desiredCpu desiredMem : ℚ) (desiredOdPct : ℤ) : ScaleoutGuardResult :=
  match computeScaleoutResources layout attr desiredCpu desiredMem desiredOdPct with
  | (c, m, p, none) =>
    if c < 0 ∧ m < 0 then .alreadySatisfied else .proceed c m p
  | (_, _, _, some _) => .skipAnchor

/-- The zero value of `VirtualMachine` (Go's zero struct). -/
def zeroVm : VirtualMachine :=
  ⟨"", 0, 0, 0, 0, 0, false, "", "", false⟩

/-- The zero value of `NodePool` (Go's zero struct). -/
def zeroNodePool : NodePool :=
  ⟨zeroVm, 0, ""⟩

/-- `transformLayout`: maps every layout description onto a `NodePool` whose
vm is the first candidate with the described instance type; a description
matching no candidate stays the zero `NodePool`. -/
def transformLayout (layoutDesc : Option (List NodePoolDesc))
    (vms : List VirtualMachine) : Option (List NodePool) :=
  match layoutDesc with
  | none => none
  | some l =>
    some (l.map (fun npd =>
      match vms.find? (fun vm => vm.type = npd.instanceType) with
      | some vm => ⟨vm, npd.sumNodes, npd.getVmClass⟩
      | none => zeroNodePool))

/-- The zone-averaging formula claimed by the specification: the sum of the
product's spot prices in the request's zones divided by the number of
matching request zones (stated for comparison with `avg`). -/
def avgSpecClaim (prices : List ZonePrice) (recZones : List String) : ℚ :=
  let matching := recZones.filter (fun z => prices.any (fun p => p.zone = z))
  let matchSum :=
    (prices.filter (fun p => containsStr recZones p.zone)).foldl
      (fun a p => a + p.price) 0
  if matching.length = 0 then 0 else matchSum / (matching.length : ℚ)

/-! ## Helper lemmas -/

theorem avg_inner_foldl (p : ZonePrice) (zs : List String) (acc : ℚ) :
    zs.foldl (fun a z => if z = p.zone then a + p.price else a) acc =
    acc + ((zs.filter (fun z => z = p.zone)).length : ℚ) * p.price := by
  induction zs generalizing acc with
  | nil => simp
  | cons z zs ih =>
    by_cases hz : z = p.zone
    · simp only [List.foldl_cons, if_pos hz, List.filter_cons,
        decide_eq_true_eq, hz, if_pos rfl, ih]
      push_cast [List.length_cons]
      ring
    · simp only [List.foldl_cons, if_neg hz, List.filter_cons,
        decide_eq_true_eq, hz, ih]
      simp [hz]

theorem foldl_add_eq_sum {α : Type} (g : α → ℚ) (l : List α) (acc : ℚ) :
    l.foldl (fun a x => a + g x) acc = acc + (l.map g).sum := by
  induction l generalizing acc with
  | nil => simp
  | cons x l ih =>
    simp only [List.foldl_cons, List.map_cons, List.sum_cons, ih]
    ring

theorem avg_outer_foldl (ps : List ZonePrice) (zs : List String) (acc : ℚ) :
    ps.foldl
      (fun acc price =>
        zs.foldl (fun a z => if z = price.zone then a + price.price else a) acc)
      acc =
    acc + (ps.map
      (fun p => ((zs.filter (fun z => z = p.zone)).length : ℚ) * p.price)).sum := by
  simp only [avg_inner_foldl]
  exact foldl_add_eq_sum _ ps acc

/-! ## C3 — zone-averaged spot price -/

/-- C3 (counterexample): for a product with spot prices 10 in zone a and 20
in zone b and a request for zone a only, `avg` returns 5 — the matching sum
divided by the number of all spot-price entries — while the claimed mean
across the matching request zones would be 10. -/
theorem C3_avg_counterexample :
    avg [⟨"a", 10⟩, ⟨"b", 20⟩] ["a"] = 5 ∧
    avgSpecClaim [⟨"a", 10⟩, ⟨"b", 20⟩] ["a"] = 10 ∧
    avg [⟨"a", 10⟩, ⟨"b", 20⟩] ["a"] ≠
      avgSpecClaim [⟨"a", 10⟩, ⟨"b", 20⟩] ["a"] := by
  have h1 : avg [⟨"a", 10⟩, ⟨"b", 20⟩] ["a"] = 5 := by
    norm_num [avg]
    rw [if_neg (by decide)]
    norm_num
  have h2 : avgSpecClaim [⟨"a", 10⟩, ⟨"b", 20⟩] ["a"] = 10 := by
    norm_num [avgSpecClaim, containsStr]
    rw [List.filter_cons_of_neg (by simp)]
    norm_num
  refine ⟨h1, h2, by rw [h1, h2]; norm_num⟩

/-- C3 (amended): `avg` sums the product's spot prices over the entries
whose zone occurs in the request's zone list (once per occurrence) and
divides by the total number of the product's spot-price entries; it is 0
when the product has no spot data or none of its zones is requested. -/
theorem C3_avg_amended (prices : List ZonePrice) (recZones : List String) :
    avg prices recZones =
      (if prices.length = 0 then 0
       else (prices.map
          (fun p => ((recZones.filter (fun z => z = p.zone)).length : ℚ) * p.price)).sum /
        (prices.length : ℚ)) ∧
    ((∀ p ∈ prices, p.zone ∉ recZones) → avg prices recZones = 0) := by
  constructor
  · unfold avg
    by_cases h : prices.length = 0
    · simp [h]
    · simp only [h, if_false]
      rw [avg_outer_foldl, zero_add]
  · intro hnone
    unfold avg
    by_cases h : prices.length = 0
    · simp [h]
    · simp only [h, if_false]
      rw [avg_outer_foldl]
      have hz : ∀ p ∈ prices,
          ((recZones.filter (fun z => z = p.zone)).length : ℚ) * p.price = 0 := by
        intro p hp
        have : recZones.filter (fun z => z = p.zone) = [] := by
          apply List.filter_eq_nil_iff.mpr
          intro z hzmem
          simp only [decide_eq_true_eq]
          intro hzeq
          exact hnone p hp (hzeq ▸ hzmem)
        simp [this]
      have : (prices.map
          (fun p => ((recZones.filter (fun z => z = p.zone)).length : ℚ) * p.price)).sum = 0 := by
        apply List.sum_eq_zero
        intro x hx
        obtain ⟨p, hp, rfl⟩ := List.mem_map.mp hx
        exact hz p hp
      simp [this]

/-- C3 (witness for the amended theorem): the no-match branch evaluated on a
concrete product. -/
theorem C3_avg_amended_witness :
    avg [⟨"a", 10⟩, ⟨"b", 20⟩] ["c"] = 0 :=
  (C3_avg_amended [⟨"a", 10⟩, ⟨"b", 20⟩] ["c"]).2 (by decide)

/-! ## C6 — attribute-range error handling -/

/-- C6: the attribute-range selection fails with the empty-domain error on
an empty value sequence (no panic), fails with the inverted-range error when
min exceeds max on a non-empty sequence, and the inverted-range error
carries the message the spec quotes; a failure returns no value list. -/
theorem C6_range_errors (vals : List ℚ) (lo hi : ℚ) :
    (vals = [] → findValuesBetween vals lo hi = .error .emptyDomain) ∧
    (vals ≠ [] → lo > hi → findValuesBetween vals lo hi = .error .invertedRange) ∧
    AttrRangeError.invertedRange.message =
      "min value cannot be larger than the max value" ∧
    ∀ e r, findValuesBetween vals lo hi = .error e →
      findValuesBetween vals lo hi ≠ .ok r := by
  refine ⟨?_, ?_, rfl, ?_⟩
  · intro h
    subst h
    rfl
  · intro hne hgt
    unfold findValuesBetween
    rw [if_neg (by simpa using hne), if_pos hgt]
  · intro e r he hok
    rw [he] at hok
    exact Except.noConfusion hok

/-- C6 (witness): the two failures observed on concrete inputs. -/
theorem C6_range_errors_witness :
    findValuesBetween [] 0 1 = .error .emptyDomain ∧
    findValuesBetween [5] 3 1 = .error .invertedRange :=
  ⟨(C6_range_errors [] 0 1).1 rfl,
   (C6_range_errors [5] 3 1).2.1 (by simp) (by norm_num)⟩

/-! ## C5 — attribute-range selection -/

theorem sorted_headI_le {l : List ℚ} (h : l.Sorted (· ≤ ·)) :
    ∀ v ∈ l, l.headI ≤ v := by
  match l with
  | [] => intro v hv; cases hv
  | x :: t =>
    intro v hv
    rcases List.mem_cons.mp hv with rfl | hvt
    · simp
    · exact (List.sorted_cons.mp h).1 v hvt

theorem sorted_le_getLastD {l : List ℚ} (h : l.Sorted (· ≤ ·)) :
    ∀ v ∈ l, v ≤ l.getLastD 0 := by
  induction l with
  | nil => intro v hv; cases hv
  | cons x t ih =>
    intro v hv
    match t with
    | [] =>
      rcases List.mem_cons.mp hv with rfl | hvt
      · simp
      · cases hvt
    | y :: t2 =>
      have hcons := List.sorted_cons.mp h
      have hlast : (x :: y :: t2).getLastD 0 = (y :: t2).getLastD 0 := by
        simp [List.getLastD_eq_getLast?]
      rcases List.mem_cons.mp hv with rfl | hvt
      · rw [hlast]
        calc v ≤ y := hcons.1 y (by simp)
          _ ≤ (y :: t2).getLastD 0 := ih hcons.2 y (by simp)
      · rw [hlast]
        exact ih hcons.2 v hvt

/-- C5 (counterexample): with domain `{1, 10}` and window `[3, 5]` no domain
value lies in the window, yet the selection returns the empty list rather
than a single nearest-boundary value. -/
theorem C5_range_counterexample :
    ¬ (3 ≤ (1 : ℚ) ∧ (1 : ℚ) ≤ 5) ∧
    ¬ (3 ≤ (10 : ℚ) ∧ (10 : ℚ) ≤ 5) ∧
    findValuesBetween [1, 10] 3 5 = .ok [] ∧
    ([] : List ℚ).length ≠ 1 :=
  ⟨by decide, by decide, by rfl, by decide⟩

/-- C5 (amended): on a non-empty domain with `min ≤ max` the selection
returns the single smallest domain value when `max` is below the whole
domain, the single largest when `min` is above the whole domain, and
otherwise exactly the domain values inside `[min, max]` in ascending order —
a list that is empty when the window falls in an interior gap of the
domain. -/
theorem C5_range_selection (vals : List ℚ) (lo hi : ℚ)
    (hne : vals ≠ []) (hlh : lo ≤ hi) :
    (hi < (vals.insertionSort (· ≤ ·)).headI →
       findValuesBetween vals lo hi = .ok [(vals.insertionSort (· ≤ ·)).headI] ∧
       ∀ v ∈ vals, (vals.insertionSort (· ≤ ·)).headI ≤ v) ∧
    (¬ hi < (vals.insertionSort (· ≤ ·)).headI →
     lo > (vals.insertionSort (· ≤ ·)).getLastD 0 →
       findValuesBetween vals lo hi =
         .ok [(vals.insertionSort (· ≤ ·)).getLastD 0] ∧
       ∀ v ∈ vals, v ≤ (vals.insertionSort (· ≤ ·)).getLastD 0) ∧
    (¬ hi < (vals.insertionSort (· ≤ ·)).headI →
     ¬ lo > (vals.insertionSort (· ≤ ·)).getLastD 0 →
       ∃ r, findValuesBetween vals lo hi = .ok r ∧
         r.Sorted (· ≤ ·) ∧
         List.Perm r (vals.filter (fun v => lo ≤ v ∧ v ≤ hi))) := by
  have hlen : ¬ vals.length = 0 := by simpa using hne
  have hsorted : (vals.insertionSort (· ≤ ·)).Sorted (· ≤ ·) :=
    List.sorted_insertionSort (· ≤ ·) vals
  have hperm : List.Perm (vals.insertionSort (· ≤ ·)) vals :=
    List.perm_insertionSort (· ≤ ·) vals
  have hnotgt : ¬ lo > hi := not_lt.mpr hlh
  refine ⟨?_, ?_, ?_⟩
  · intro hcase
    constructor
    · unfold findValuesBetween
      rw [if_neg hlen, if_neg hnotgt]
      simp only [if_pos hcase]
    · intro v hv
      exact sorted_headI_le hsorted v (hperm.mem_iff.mpr hv)
  · intro hcase1 hcase2
    constructor
    · unfold findValuesBetween
      rw [if_neg hlen, if_neg hnotgt]
      simp only [if_neg hcase1, if_pos hcase2]
    · intro v hv
      exact sorted_le_getLastD hsorted v (hperm.mem_iff.mpr hv)
  · intro hcase1 hcase2
    refine ⟨(vals.insertionSort (· ≤ ·)).filter (fun v => lo ≤ v ∧ v ≤ hi),
      ?_, ?_, ?_⟩
    · unfold findValuesBetween
      rw [if_neg hlen, if_neg hnotgt]
      simp only [if_neg hcase1, if_neg hcase2]
    · exact hsorted.sublist (List.filter_sublist _)
    · exact hperm.filter _

/-- C5 (witness for the amended theorem): the three branches on concrete
inputs. -/
theorem C5_range_selection_witness :
    findValuesBetween [30, 40, 50, 60] 10 20 = .ok [30] ∧
    findValuesBetween [1, 2, 3, 5, 9] 10 20 = .ok [9] ∧
    ∃ r, findValuesBetween [1, 2, 10] 2 5 = .ok r ∧
      r.Sorted (· ≤ ·) ∧
      List.Perm r (([1, 2, 10] : List ℚ).filter (fun v => 2 ≤ v ∧ v ≤ 5)) := by
  refine ⟨?_, ?_, ?_⟩
  · exact ((C5_range_selection [30, 40, 50, 60] 10 20 (by simp)
      (by norm_num)).1 (by decide)).1
  · exact ((C5_range_selection [1, 2, 3, 5, 9] 10 20 (by simp)
      (by norm_num)).2.1 (by decide) (by decide)).1
  · exact (C5_range_selection [1, 2, 10] 2 5 (by simp)
      (by norm_num)).2.2 (by decide) (by decide)

/-! ## C10 — layout transformation -/

/-- C10: the class normalisation maps `regular` to itself, `ondemand` to
`regular`, `spot` to itself and any other string to `spot` — always one of
`regular`/`spot` — and a layout description whose instance type matches no
candidate vm becomes the zero `NodePool` (empty type, empty class, zero
nodes). -/
theorem C10_layout_transformation :
    (∀ n : NodePoolDesc,
      (n.getVmClass = regular ∨ n.getVmClass = spot) ∧
      (n.vmClass = regular → n.getVmClass = regular) ∧
      (n.vmClass = ondemand → n.getVmClass = regular) ∧
      (n.vmClass = spot → n.getVmClass = spot) ∧
      (n.vmClass ≠ regular → n.vmClass ≠ ondemand → n.vmClass ≠ spot →
        n.getVmClass = spot)) ∧
    (∀ (l : List NodePoolDesc) (vms : List VirtualMachine)
        (nps : List NodePool),
      transformLayout (some l) vms = some nps →
      nps.length = l.length ∧
      ∀ i npd, l.get? i = some npd →
        (∀ vm ∈ vms, vm.type ≠ npd.instanceType) →
        nps.get? i = some zeroNodePool) := by
  constructor
  · intro n
    unfold NodePoolDesc.getVmClass
    refine ⟨?_, ?_, ?_, ?_, ?_⟩
    · by_cases h : n.vmClass = regular ∨ n.vmClass = spot
      · rw [if_pos h]
        exact h
      · rw [if_neg h]
        by_cases h2 : n.vmClass = ondemand
        · rw [if_pos h2]; left; rfl
        · rw [if_neg h2]; right; rfl
    · intro h
      rw [if_pos (Or.inl h), h]
    · intro h
      have h1 : ¬ (n.vmClass = regular ∨ n.vmClass = spot) := by
        rw [h]; decide
      rw [if_neg h1, if_pos h]
    · intro h
      rw [if_pos (Or.inr h), h]
    · intro h1 h2 h3
      rw [if_neg (by tauto), if_neg h2]
  · intro l vms nps htr
    have hnps : nps = l.map (fun npd =>
        match vms.find? (fun vm => vm.type = npd.instanceType) with
        | some vm => ⟨vm, npd.sumNodes, npd.getVmClass⟩
        | none => zeroNodePool) := by
      unfold transformLayout at htr
      injection htr with h
      exact h.symm
    subst hnps
    refine ⟨List.length_map _ _, ?_⟩
    intro i npd hget hnomatch
    rw [List.get?_map, hget]
    have hfind : vms.find? (fun vm => vm.type = npd.instanceType) = none := by
      apply List.find?_eq_none.mpr
      intro vm hvm
      simpa using hnomatch vm hvm
    simp [hfind]

/-- C10 (witness): a concrete three-entry layout exercising the `ondemand`
alias, the unknown-class default and the no-matching-vm zero pool. -/
theorem C10_layout_transformation_witness :
    (NodePoolDesc.mk "a" "ondemand" 2).getVmClass = regular ∧
    (NodePoolDesc.mk "a" "weird" 2).getVmClass = spot ∧
    ([zeroNodePool] : List NodePool).get? 0 = some zeroNodePool := by
  refine ⟨((C10_layout_transformation.1 ⟨"a", "ondemand", 2⟩).2.2.1 rfl),
    ((C10_layout_transformation.1 ⟨"a", "weird", 2⟩).2.2.2.2
      (by decide) (by decide) (by decide)), ?_⟩
  exact (C10_layout_transformation.2 [⟨"z", "regular", 3⟩]
    [⟨"a", 1, 1, 4, 4, 0, false, "", "", true⟩] [zeroNodePool] (by rfl)).2
    0 ⟨"z", "regular", 3⟩ rfl (by decide)

/-! ## C4 — scale-out already-satisfied guard -/

/-- A sample instance type used by concrete witnesses below. -/
def sampleVm : VirtualMachine := ⟨"a", 1, 1, 4, 4, 0, false, "", "", true⟩

/-- C4 (counterexample): a layout of one regular node with 4 cpus and 4 GB
provides exactly the desired totals `(4, 4)` — the scale-out delta is zero
on both anchors — yet neither anchor pass reports the already-satisfied
error: both proceed with zeroed deltas. -/
theorem C4_already_satisfied_counterexample :
    currentCpuTotal [⟨sampleVm, 1, regular⟩] = 4 ∧
    currentMemTotal [⟨sampleVm, 1, regular⟩] = 4 ∧
    scaleoutGuard [⟨sampleVm, 1, regular⟩] Cpu 4 4 0 = .proceed 0 0 0 ∧
    scaleoutGuard [⟨sampleVm, 1, regular⟩] Memory 4 4 0 = .proceed 0 0 0 := by
  refine ⟨?_, ?_, ?_, ?_⟩ <;>
    norm_num [scaleoutGuard, computeScaleoutResources, currentCpuTotal,
      currentMemTotal, currentOdCpuTotal, currentOdMemTotal, sampleVm, goTrunc,
      Cpu, Memory, regular]

/-- C4 (amended): the already-satisfied failure is raised exactly when the
existing layout strictly exceeds the desired total on both anchors; a
scale-out delta of exactly zero on both anchors instead proceeds with a
zero-resource request. -/
theorem C4_already_satisfied_amended (layout : List NodePool) (attr : String)
    (dC dM : ℚ) (pct : ℤ) :
    scaleoutGuard layout attr dC dM pct = .alreadySatisfied ↔
    (dC - currentCpuTotal layout < 0 ∧ dM - currentMemTotal layout < 0) := by
  unfold scaleoutGuard computeScaleoutResources
  by_cases h : dC - currentCpuTotal layout < 0 ∧ dM - currentMemTotal layout < 0
  · simp [h]
  · simp only [h, if_false]
    constructor
    · intro habs
      exfalso
      revert habs
      by_cases hc : attr = Cpu
      · subst hc
        simp only [if_pos rfl]
        by_cases hneg : dC - currentCpuTotal layout < 0
        · simp [hneg]
        · simp only [hneg, if_false]
          by_cases hgt : goTrunc ((dC * (pct : ℚ) / 100 - currentOdCpuTotal layout) /
              (dC - currentCpuTotal layout) * 100) > 100
          · simp [hgt]
          · by_cases hlt : goTrunc ((dC * (pct : ℚ) / 100 - currentOdCpuTotal layout) /
                (dC - currentCpuTotal layout) * 100) < 0
            all_goals
              simp [hgt, hlt, h]
              intro h2
              rw [sub_neg] at hneg
              exact absurd h2 hneg
      · by_cases hm : attr = Memory
        · subst hm
          rw [if_neg (by decide : ¬ (Memory = Cpu)), if_pos rfl]
          by_cases hneg : dM - currentMemTotal layout < 0
          · simp [hneg]
          · simp only [hneg, if_false]
            by_cases hgt : goTrunc ((dM * (pct : ℚ) / 100 - currentOdMemTotal layout) /
                (dM - currentMemTotal layout) * 100) > 100
            · simp [hgt]
            · by_cases hlt : goTrunc ((dM * (pct : ℚ) / 100 - currentOdMemTotal layout) /
                  (dM - currentMemTotal layout) * 100) < 0
              all_goals
                simp [hgt, hlt, h]
                intro h2
                rw [sub_neg] at hneg
                exact not_lt.mp hneg
        · simp [hc, hm, h]
          intro h2
          by_contra h3
          exact h ⟨sub_neg.mpr h2, sub_neg.mpr (not_le.mp h3)⟩
    · intro habs
      exact False.elim habs

/-! ## C9 — fill width in scale-out mode -/

/-- A sample vm with a given instance type. -/
def vmOfType (t : String) : VirtualMachine := { sampleVm with type := t }

/-- C9 (counterexample): a layout with two non-empty spot pools of which
only one matches a spot candidate.  The scan counts both non-empty pools
(`nonZeroNPs = 2`), not only the kept one (which would give 1), and the
resulting `N = min(2, 2) = 2` exceeds the single pool actually passed to
the fill loop. -/
theorem C9_fill_width_counterexample :
    spotLayoutScan
        [⟨vmOfType "x", 5, spot⟩, ⟨vmOfType "b", 2, spot⟩]
        [vmOfType "b", vmOfType "y"] =
      (2, [⟨vmOfType "b", 2, spot⟩], [⟨vmOfType "x", 5, spot⟩]) ∧
    (([⟨vmOfType "x", 5, spot⟩, ⟨vmOfType "b", 2, spot⟩] : List NodePool).filter
        (fun np => np.vmClass = spot ∧ np.sumNodes > 0 ∧
          ([vmOfType "b", vmOfType "y"] : List VirtualMachine).any
            (fun vm => np.vmType.type = vm.type))).length = 1 ∧
    (2 : ℕ) ≠ 1 ∧
    findNWithLayout 2 2 = 2 ∧
    2 > ([⟨vmOfType "b", 2, spot⟩] : List NodePool).length := by
  refine ⟨by decide, by decide, by decide, by decide, by decide⟩

/-- The step function of `spotLayoutScan`. -/
def spotLayoutScanStep (spotVms : List VirtualMachine)
    (acc : ℕ × List NodePool × List NodePool) (np : NodePool) :
    ℕ × List NodePool × List NodePool :=
  if np.vmClass = spot then
    let nz := if np.sumNodes > 0 then acc.1 + 1 else acc.1
    if spotVms.any (fun vm => np.vmType.type = vm.type) then
      (nz, acc.2.1 ++ [np], acc.2.2)
    else
      (nz, acc.2.1, acc.2.2 ++ [np])
  else acc

theorem spotLayoutScan_foldl (layout : List NodePool)
    (spotVms : List VirtualMachine) (acc : ℕ × List NodePool × List NodePool) :
    layout.foldl (spotLayoutScanStep spotVms) acc =
      (acc.1 + (layout.filter
          (fun np => np.vmClass = spot ∧ np.sumNodes > 0)).length,
       acc.2.1 ++ layout.filter (fun np => np.vmClass = spot ∧
          spotVms.any (fun vm => np.vmType.type = vm.type)),
       acc.2.2 ++ layout.filter (fun np => np.vmClass = spot ∧
          ¬ spotVms.any (fun vm => np.vmType.type = vm.type))) := by
  induction layout generalizing acc with
  | nil => simp
  | cons np l ih =>
    simp only [List.foldl_cons, ih, List.filter_cons]
    unfold spotLayoutScanStep
    by_cases hs : np.vmClass = spot
    · by_cases hnz : np.sumNodes > 0 <;>
        by_cases hm : spotVms.any (fun vm => np.vmType.type = vm.type) <;>
          simp [hs, hnz, hm, List.append_assoc] <;> omega
    · simp [hs]

/-- C9 (amended): `nonZeroNPs` counts every spot pool of the layout with a
positive node count — kept or excluded alike — the kept list holds exactly
the spot pools whose type is among the spot candidates, the excluded list
the remaining spot pools, and the fill width is `N = 1` when
`nonZeroNPs = 0` and `N = min(nonZeroNPs, #spotCandidates)` otherwise;
`N` may therefore exceed the number of kept pools passed to the fill
loop. -/
theorem C9_fill_width_amended (layout : List NodePool)
    (spotVms : List VirtualMachine) (n v : ℕ) :
    spotLayoutScan layout spotVms =
      ((layout.filter (fun np => np.vmClass = spot ∧ np.sumNodes > 0)).length,
       layout.filter (fun np => np.vmClass = spot ∧
          spotVms.any (fun vm => np.vmType.type = vm.type)),
       layout.filter (fun np => np.vmClass = spot ∧
          ¬ spotVms.any (fun vm => np.vmType.type = vm.type))) ∧
    findNWithLayout n v = if n = 0 then 1 else min n v := by
  constructor
  · have h := spotLayoutScan_foldl layout spotVms (0, [], [])
    unfold spotLayoutScan
    unfold spotLayoutScanStep at h
    simpa using h
  · unfold findNWithLayout
    by_cases h0 : n = 0
    · simp [h0]
    · by_cases hlt : n < v
      · simp [h0, hlt, min_eq_left (le_of_lt hlt)]
      · simp [h0, hlt, min_eq_right (not_lt.mp hlt)]

/-! ## C2 — plan selection by price -/

/-- C2 (counterexample): with a cpu-anchored plan of price 0 and a
memory-anchored plan of price 1, the selector returns the memory plan — the
zero best price counts as "unset", so the strictly cheaper plan is not
returned. -/
theorem C2_cheapest_counterexample :
    planPrice [⟨sampleVm, 0, regular⟩] = 0 ∧
    planPrice [⟨sampleVm, 1, regular⟩] = 1 ∧
    planPrice [⟨sampleVm, 0, regular⟩] < planPrice [⟨sampleVm, 1, regular⟩] ∧
    findCheapestNodePoolSet
        [(Cpu, [⟨sampleVm, 0, regular⟩]), (Memory, [⟨sampleVm, 1, regular⟩])] =
      [⟨sampleVm, 1, regular⟩] ∧
    ([⟨sampleVm, 1, regular⟩] : List NodePool) ≠ [⟨sampleVm, 0, regular⟩] := by
  have h0 : planPrice [⟨sampleVm, 0, regular⟩] = 0 := by
    norm_num [planPrice, NodePool.poolPrice, sampleVm]
  have h1 : planPrice [⟨sampleVm, 1, regular⟩] = 1 := by
    norm_num [planPrice, NodePool.poolPrice, sampleVm]
  refine ⟨h0, h1, by rw [h0, h1]; norm_num, ?_, by decide⟩
  unfold findCheapestNodePoolSet
  simp only [List.foldl_cons, List.foldl_nil, h0, h1]
  norm_num

theorem planPrice_split (l : List NodePool)
    (h : ∀ np ∈ l, np.vmClass = regular ∨ np.vmClass = spot) :
    planPrice l =
      ((l.filter (fun np => np.vmClass = regular)).map
        (fun np => (np.sumNodes : ℚ) * np.vmType.onDemandPrice)).sum +
      ((l.filter (fun np => np.vmClass = spot)).map
        (fun np => (np.sumNodes : ℚ) * np.vmType.avgPrice)).sum := by
  induction l with
  | nil => simp [planPrice]
  | cons np l ih =>
    have hnp := h np (by simp)
    have hl : ∀ x ∈ l, x.vmClass = regular ∨ x.vmClass = spot :=
      fun x hx => h x (by simp [hx])
    rcases hnp with hr | hs
    · have hns : ¬ np.vmClass = spot := by rw [hr]; decide
      simp only [planPrice, List.map_cons, List.sum_cons, List.filter_cons,
        hr, hns, decide_True, decide_False, if_true, if_false]
      rw [show np.poolPrice = (np.sumNodes : ℚ) * np.vmType.onDemandPrice by
        unfold NodePool.poolPrice; rw [if_pos hr]]
      have := ih hl
      unfold planPrice at this
      rw [this]
      rw [if_neg (by decide : ¬ (decide (regular = spot) = true))]
      ring
    · have hnr : ¬ np.vmClass = regular := by rw [hs]; decide
      simp only [planPrice, List.map_cons, List.sum_cons, List.filter_cons,
        hs, hnr, decide_True, decide_False, if_true, if_false]
      rw [show np.poolPrice = (np.sumNodes : ℚ) * np.vmType.avgPrice by
        unfold NodePool.poolPrice; rw [if_neg hnr, if_pos hs]]
      have := ih hl
      unfold planPrice at this
      rw [this]
      rw [if_neg (by decide : ¬ (decide (spot = regular) = true))]
      ring

/-- C2 (amended): a plan's price is the sum over its regular pools of
`sumNodes · onDemandPrice` plus the sum over its spot pools of
`sumNodes · avgPrice`; when both plans have positive price the selector,
iterating cpu before memory, returns the strictly cheaper plan and returns
the cpu-anchored plan on a price tie.  (A plan of price exactly 0 never
sticks as the running best; Go's map iteration order is additionally
unspecified, so the order is a parameter here.) -/
theorem C2_cheapest_amended (pA pB : List NodePool)
    (hA : 0 < planPrice pA) (hB : 0 < planPrice pB) :
    ((∀ np ∈ pA, np.vmClass = regular ∨ np.vmClass = spot) →
      planPrice pA =
        ((pA.filter (fun np => np.vmClass = regular)).map
          (fun np => (np.sumNodes : ℚ) * np.vmType.onDemandPrice)).sum +
        ((pA.filter (fun np => np.vmClass = spot)).map
          (fun np => (np.sumNodes : ℚ) * np.vmType.avgPrice)).sum) ∧
    findCheapestNodePoolSet [(Cpu, pA), (Memory, pB)] =
      (if planPrice pB < planPrice pA then pB else pA) ∧
    (planPrice pA = planPrice pB →
      findCheapestNodePoolSet [(Cpu, pA), (Memory, pB)] = pA) := by
  have hmain : findCheapestNodePoolSet [(Cpu, pA), (Memory, pB)] =
      (if planPrice pB < planPrice pA then pB else pA) := by
    unfold findCheapestNodePoolSet
    simp only [List.foldl_cons, List.foldl_nil]
    rw [if_pos (Or.inl trivial)]
    by_cases hlt : planPrice pB < planPrice pA
    · rw [if_pos (Or.inr hlt), if_pos hlt]
    · rw [if_neg ?_, if_neg hlt]
      push_neg
      refine ⟨ne_of_gt hA, ?_⟩
      exact not_lt.mp hlt
  refine ⟨fun h => planPrice_split pA h, hmain, fun heq => ?_⟩
  rw [hmain, if_neg (by rw [heq]; exact lt_irrefl _)]

/-- C2 (witness for the amended theorem): two concrete positive-price plans
with a tie resolved to the cpu-anchored plan. -/
theorem C2_cheapest_amended_witness :
    findCheapestNodePoolSet
        [(Cpu, [⟨sampleVm, 2, regular⟩]), (Memory, [⟨sampleVm, 2, spot⟩])] =
      [⟨sampleVm, 2, regular⟩] := by
  have h1 : planPrice [⟨sampleVm, 2, regular⟩] = 2 := by
    norm_num [planPrice, NodePool.poolPrice, sampleVm]
  have h2 : planPrice [⟨sampleVm, 2, spot⟩] = 2 := by
    norm_num [planPrice, NodePool.poolPrice, sampleVm, regular, spot]
  exact (C2_cheapest_amended [⟨sampleVm, 2, regular⟩] [⟨sampleVm, 2, spot⟩]
    (by rw [h1]; norm_num) (by rw [h2]; norm_num)).2.2 (by rw [h1, h2])

/-! ## Fill-loop machinery (C7, C8, C1) -/

/-- The attribute total of the first `N` pools. -/
def sumTake (attr : String) (N : ℕ) (nps : List NodePool) : ℚ :=
  ((nps.take N).map (fun np => np.getSum attr)).sum

/-- Forward distance from position `k` to `mi` in the cyclic index space of
width `N`. -/
def distTo (mi k N : ℕ) : ℕ :=
  if k ≤ mi then mi - k else mi + N - k

/-- Termination measure of the fill loop for a positive lower bound `ε` on
the attribute values of the first `N` pools. -/
def fillMeasure (ε desired : ℚ) (N mi : ℕ) (st : FillState) : ℕ :=
  (Int.toNat ⌈(desired - st.sum) / ε⌉) * N + distTo mi (st.idx % N) N

theorem fillInit_isSome (attr : String) (nps : List NodePool) (N : ℕ)
    (hlen : N ≤ nps.length) :
    ∃ s mv mi, fillInit attr nps N = some (s, mv, mi) := by
  induction N with
  | zero => exact ⟨0, 0, 0, rfl⟩
  | succ n ih =>
    obtain ⟨s, mv, mi, h⟩ := ih (le_trans (Nat.le_succ n) hlen)
    have hget : ∃ p, nps.get? n = some p := by
      rw [List.get?_eq_get (by omega)]
      exact ⟨_, rfl⟩
    obtain ⟨p, hp⟩ := hget
    unfold fillInit
    rw [h, hp]
    dsimp only
    by_cases h0 : n = 0
    · exact ⟨_, _, _, by rw [if_pos h0]⟩
    · by_cases hlt : p.getSum attr < mv
      · exact ⟨_, _, _, by rw [if_neg h0, if_pos hlt]⟩
      · exact ⟨_, _, _, by rw [if_neg h0, if_neg hlt]⟩

theorem fillInit_spec (attr : String) (nps : List NodePool) :
    ∀ (N : ℕ) (s mv : ℚ) (mi : ℕ),
      fillInit attr nps N = some (s, mv, mi) →
      N ≤ nps.length ∧ s = sumTake attr N nps ∧ (0 < N → mi < N) ∧
      (N = 0 → mi = 0) := by
  intro N
  induction N with
  | zero =>
    intro s mv mi h
    have h0 : fillInit attr nps 0 = some (0, 0, 0) := rfl
    rw [h0] at h
    have h' := Option.some.inj h
    have hs : s = 0 := (congrArg Prod.fst h').symm
    have hmi : mi = 0 := (congrArg (fun x => x.2.2) h').symm
    refine ⟨Nat.zero_le _, by rw [hs]; simp [sumTake], by omega, fun _ => hmi⟩
  | succ n ih =>
    intro s mv mi h
    unfold fillInit at h
    cases hprev : fillInit attr nps n with
    | none => rw [hprev] at h; exact absurd h (by simp)
    | some prev =>
      obtain ⟨ps, pmv, pmi⟩ := prev
      rw [hprev] at h
      cases hget : nps.get? n with
      | none => rw [hget] at h; exact absurd h (by simp)
      | some p =>
        rw [hget] at h
        dsimp only at h
        obtain ⟨hlenp, hsum', hmi', -⟩ := ih ps pmv pmi hprev
        have hn : n < nps.length := (List.get?_eq_some.mp hget).1
        have htake : nps.take (n + 1) = nps.take n ++ [p] := by
          rw [List.take_succ, ← List.get?_eq_getElem?, hget]
          rfl
        have hsum : ps + p.getSum attr = sumTake attr (n + 1) nps := by
          rw [hsum']
          unfold sumTake
          rw [htake]
          simp
        by_cases h0 : n = 0
        · rw [if_pos h0] at h
          have h' := Option.some.inj h
          have hs : s = ps + p.getSum attr := (congrArg Prod.fst h').symm
          have hmi2 : mi = n := (congrArg (fun x => x.2.2) h').symm
          exact ⟨hn, by rw [hs, hsum], fun _ => by omega, by omega⟩
        · rw [if_neg h0] at h
          by_cases hlt : p.getSum attr < pmv
          · rw [if_pos hlt] at h
            have h' := Option.some.inj h
            have hs : s = ps + p.getSum attr := (congrArg Prod.fst h').symm
            have hmi2 : mi = n := (congrArg (fun x => x.2.2) h').symm
            exact ⟨hn, by rw [hs, hsum], fun _ => by omega, by omega⟩
          · rw [if_neg hlt] at h
            have h' := Option.some.inj h
            have hs : s = ps + p.getSum attr := (congrArg Prod.fst h').symm
            have hmi2 : mi = pmi := (congrArg (fun x => x.2.2) h').symm
            refine ⟨hn, by rw [hs, hsum], fun _ => ?_, by omega⟩
            have := hmi' (by omega)
            omega

/-- Facts preserved from one fill-loop state to a later one: pool count,
vm types and classes pointwise, monotone node counts, untouched tail beyond
`N`, and the correspondence between the running sum and the actual pool
contents. -/
structure FillPres (attr : String) (N : ℕ) (st st' : FillState) : Prop where
  len : st'.pools.length = st.pools.length
  vms : ∀ i, (st'.pools.get? i).map (fun p => p.vmType) =
    (st.pools.get? i).map (fun p => p.vmType)
  cls : ∀ i, (st'.pools.get? i).map (fun p => p.vmClass) =
    (st.pools.get? i).map (fun p => p.vmClass)
  nodes : ∀ i p p', st.pools.get? i = some p → st'.pools.get? i = some p' →
    p.sumNodes ≤ p'.sumNodes
  dropEq : st'.pools.drop N = st.pools.drop N
  sumCorr : st.sum = sumTake attr N st.pools →
    st'.sum = sumTake attr N st'.pools

theorem FillPres.rfl (attr : String) (N : ℕ) (st : FillState) :
    FillPres attr N st st :=
  ⟨Eq.refl _, fun _ => Eq.refl _, fun _ => Eq.refl _,
   fun i p p' h h' => by rw [h] at h'; injection h' with h2; rw [h2],
   Eq.refl _, fun h => h⟩

theorem FillPres.comp {attr : String} {N : ℕ} {st1 st2 st3 : FillState}
    (a : FillPres attr N st1 st2) (b : FillPres attr N st2 st3) :
    FillPres attr N st1 st3 := by
  refine ⟨b.len.trans a.len, fun i => (b.vms i).trans (a.vms i),
    fun i => (b.cls i).trans (a.cls i), ?_, b.dropEq.trans a.dropEq,
    fun h => b.sumCorr (a.sumCorr h)⟩
  intro i p p' h1 h3
  cases h2 : st2.pools.get? i with
  | none =>
    have := a.vms i
    rw [h1, h2] at this
    exact absurd this (by simp)
  | some q =>
    exact le_trans (a.nodes i p q h1 h2) (b.nodes i q p' h2 h3)

theorem sumTake_set_succ (attr : String) (N k : ℕ) (nps : List NodePool)
    (p : NodePool) (hk : k < N) (hget : nps.get? k = some p) :
    sumTake attr N (nps.set k { p with sumNodes := p.sumNodes + 1 }) =
      sumTake attr N nps + p.vmType.getAttrValue attr := by
  induction nps generalizing k N with
  | nil => exact absurd hget (by simp)
  | cons np t ih =>
    cases k with
    | zero =>
      have hp : np = p := by simpa using hget
      subst hp
      obtain ⟨n, rfl⟩ : ∃ n, N = n + 1 := ⟨N - 1, by omega⟩
      unfold sumTake
      rw [List.set_cons_zero, List.take_succ_cons, List.take_succ_cons]
      simp only [List.map_cons, List.sum_cons]
      unfold NodePool.getSum
      push_cast
      ring
    | succ k2 =>
      have hget2 : t.get? k2 = some p := by simpa using hget
      obtain ⟨n, rfl⟩ : ∃ n, N = n + 1 := ⟨N - 1, by omega⟩
      unfold sumTake
      rw [List.set_cons_succ, List.take_succ_cons, List.take_succ_cons]
      simp only [List.map_cons, List.sum_cons]
      have := ih n k2 (by omega) hget2
      unfold sumTake at this
      rw [this]
      ring

theorem set_incr_facts (N : ℕ) (l : List NodePool) (k : ℕ) (p : NodePool)
    (hk : k < N) (hget : l.get? k = some p) :
    (l.set k { p with sumNodes := p.sumNodes + 1 }).length = l.length ∧
    (∀ i, ((l.set k { p with sumNodes := p.sumNodes + 1 }).get? i).map
        (fun q => q.vmType) = (l.get? i).map (fun q => q.vmType)) ∧
    (∀ i, ((l.set k { p with sumNodes := p.sumNodes + 1 }).get? i).map
        (fun q => q.vmClass) = (l.get? i).map (fun q => q.vmClass)) ∧
    (∀ i q q', l.get? i = some q →
      (l.set k { p with sumNodes := p.sumNodes + 1 }).get? i = some q' →
      q.sumNodes ≤ q'.sumNodes) ∧
    (l.set k { p with sumNodes := p.sumNodes + 1 }).drop N = l.drop N := by
  refine ⟨List.length_set l _ _, ?_, ?_, ?_, List.drop_set_of_lt _ l hk⟩
  · intro i
    by_cases hik : k = i
    · subst hik
      rw [List.get?_set_eq, hget]
      rfl
    · rw [List.get?_set_ne _ _ hik]
  · intro i
    by_cases hik : k = i
    · subst hik
      rw [List.get?_set_eq, hget]
      rfl
    · rw [List.get?_set_ne _ _ hik]
  · intro i q q' hq hq'
    by_cases hik : k = i
    · subst hik
      rw [List.get?_set_eq, hget] at hq'
      rw [hget] at hq
      injection hq with hq
      injection hq' with hq'
      rw [← hq, ← hq']
      show p.sumNodes ≤ p.sumNodes + 1
      omega
    · rw [List.get?_set_ne _ _ hik, hq] at hq'
      injection hq' with hq'
      rw [hq']

theorem fillStep_spec (attr : String) (N mi : ℕ) (st : FillState)
    (hN : 0 < N) (hmi : mi < N) (hlen : N ≤ st.pools.length) :
    ∃ st', fillStep attr N mi st = some st' ∧ FillPres attr N st st' ∧
      ((st'.sum = st.sum ∧ st'.idx = st.idx + 1 ∧ st.idx % N ≠ mi) ∨
       (∃ p, st.pools.get? (st.idx % N) = some p ∧
          st'.sum = st.sum + p.vmType.getAttrValue attr)) := by
  have hk : st.idx % N < N := Nat.mod_lt _ hN
  obtain ⟨p, hp⟩ : ∃ p, st.pools.get? (st.idx % N) = some p := by
    rw [List.get?_eq_get (lt_of_lt_of_le hk hlen)]
    exact ⟨_, rfl⟩
  obtain ⟨pm, hpm⟩ : ∃ pm, st.pools.get? mi = some pm := by
    rw [List.get?_eq_get (lt_of_lt_of_le hmi hlen)]
    exact ⟨_, rfl⟩
  obtain ⟨hl, hv, hc, hn, hd⟩ := set_incr_facts N st.pools (st.idx % N) p hk hp
  unfold fillStep
  simp only [hp, hpm]
  by_cases hcase : st.idx % N = mi
  · rw [if_pos hcase]
    refine ⟨_, rfl, ⟨hl, hv, hc, hn, hd, ?_⟩, Or.inr ⟨p, rfl, rfl⟩⟩
    intro hsum
    show st.sum + p.vmType.getAttrValue attr = _
    rw [hsum, sumTake_set_succ attr N _ _ p hk hp]
  · rw [if_neg hcase]
    by_cases hgt : p.getNextSum attr > pm.getSum attr
    · rw [if_pos hgt]
      exact ⟨_, rfl,
        ⟨rfl, fun _ => rfl, fun _ => rfl,
         fun i q q' h h' => by rw [h] at h'; injection h' with h2; rw [h2],
         rfl, fun h => h⟩,
        Or.inl ⟨rfl, rfl, hcase⟩⟩
    · rw [if_neg hgt]
      refine ⟨_, rfl, ⟨hl, hv, hc, hn, hd, ?_⟩, Or.inr ⟨p, rfl, rfl⟩⟩
      intro hsum
      show st.sum + p.vmType.getAttrValue attr = _
      rw [hsum, sumTake_set_succ attr N _ _ p hk hp]

theorem fillLoop_spec (attr : String) (N mi : ℕ) (desired : ℚ)
    (hmi : mi < N) :
    ∀ (fuel : ℕ) (st st' : FillState), N ≤ st.pools.length →
      fillLoop attr N mi desired fuel st = some st' →
      FillPres attr N st st' ∧ ¬ st'.sum < desired := by
  intro fuel
  induction fuel with
  | zero =>
    intro st st' hlen h
    unfold fillLoop at h
    by_cases hs : st.sum < desired
    · rw [if_pos hs] at h
      exact absurd h (by simp)
    · rw [if_neg hs] at h
      injection h with h
      subst h
      exact ⟨FillPres.rfl attr N st, hs⟩
  | succ f ih =>
    intro st st' hlen h
    unfold fillLoop at h
    by_cases hs : st.sum < desired
    · rw [if_pos hs] at h
      by_cases h0 : N = 0
      · rw [if_pos h0] at h
        exact absurd h (by simp)
      · rw [if_neg h0] at h
        obtain ⟨st2, hstep, hpres, -⟩ :=
          fillStep_spec attr N mi st (Nat.pos_of_ne_zero h0) hmi hlen
        rw [hstep] at h
        obtain ⟨hpres2, hsum⟩ := ih st2 st' (by rw [hpres.len]; exact hlen) h
        exact ⟨hpres.comp hpres2, hsum⟩
    · rw [if_neg hs] at h
      injection h with h
      subst h
      exact ⟨FillPres.rfl attr N st, hs⟩

theorem distTo_lt (mi k N : ℕ) (hmi : mi < N) (hk : k < N) :
    distTo mi k N < N := by
  unfold distTo
  by_cases h : k ≤ mi
  · rw [if_pos h]; omega
  · rw [if_neg h]; omega

theorem distTo_step (N mi idx : ℕ) (hN : 0 < N) (hmi : mi < N)
    (hne : idx % N ≠ mi) :
    distTo mi ((idx + 1) % N) N + 1 = distTo mi (idx % N) N ∧
    1 ≤ distTo mi (idx % N) N := by
  have hk : idx % N < N := Nat.mod_lt _ hN
  have hN2 : 2 ≤ N := by
    by_contra hcon
    have hN1 : N = 1 := by omega
    apply hne
    rw [hN1, Nat.mod_one]
    omega
  have hmod : (idx + 1) % N = (idx % N + 1) % N := by
    rw [Nat.add_mod]
    rw [Nat.mod_eq_of_lt (show 1 < N by omega)]
  by_cases hend : idx % N + 1 = N
  · have h0 : (idx + 1) % N = 0 := by
      rw [hmod, hend, Nat.mod_self]
    rw [h0]
    unfold distTo
    rw [if_pos (Nat.zero_le mi)]
    by_cases h : idx % N ≤ mi
    · rw [if_pos h]; omega
    · rw [if_neg h]; omega
  · have hlt : idx % N + 1 < N := by omega
    have h1 : (idx + 1) % N = idx % N + 1 := by
      rw [hmod, Nat.mod_eq_of_lt hlt]
    rw [h1]
    unfold distTo
    by_cases h : idx % N + 1 ≤ mi
    · rw [if_pos h, if_pos (by omega)]; omega
    · rw [if_neg h]
      by_cases h2 : idx % N ≤ mi
      · rw [if_pos h2]
        omega
      · rw [if_neg h2]
        omega

theorem ceil_part_pos (x ε : ℚ) (hε : 0 < ε) (hx : 0 < x) :
    1 ≤ Int.toNat ⌈x / ε⌉ := by
  have : (0 : ℚ) < x / ε := div_pos hx hε
  have h2 : 0 < ⌈x / ε⌉ := Int.ceil_pos.mpr this
  omega

theorem ceil_part_decrease (x a ε : ℚ) (hε : 0 < ε) (ha : ε ≤ a) :
    Int.toNat ⌈(x - a) / ε⌉ + 1 ≤ Int.toNat ⌈x / ε⌉ ∨
    Int.toNat ⌈(x - a) / ε⌉ = 0 := by
  by_cases hx : 0 < x
  · left
    have hle : (x - a) / ε ≤ x / ε - 1 := by
      have h1 : (x - a) / ε ≤ (x - ε) / ε :=
        (div_le_div_right hε).mpr (by linarith)
      have h2 : (x - ε) / ε = x / ε - 1 := by
        field_simp
      linarith
    have hceil : ⌈(x - a) / ε⌉ ≤ ⌈x / ε⌉ - 1 := by
      calc ⌈(x - a) / ε⌉ ≤ ⌈x / ε - 1⌉ := Int.ceil_le_ceil hle
        _ = ⌈x / ε⌉ - 1 := by
          rw [show x / ε - 1 = x / ε - ((1 : ℤ) : ℚ) by norm_num,
            Int.ceil_sub_int]
    have hpos := ceil_part_pos x ε hε hx
    omega
  · right
    have : (x - a) / ε ≤ 0 := by
      apply div_nonpos_of_nonpos_of_nonneg ?_ (le_of_lt hε)
      linarith
    have h3 : ⌈(x - a) / ε⌉ ≤ 0 := Int.ceil_le.mpr (by exact_mod_cast this)
    omega

theorem fillLoop_isSome (attr : String) (N mi : ℕ) (desired ε : ℚ)
    (hN : 0 < N) (hmi : mi < N) (hε : 0 < ε) :
    ∀ (bound : ℕ) (st : FillState),
      N ≤ st.pools.length →
      (∀ i p, i < N → st.pools.get? i = some p →
        ε ≤ p.vmType.getAttrValue attr) →
      fillMeasure ε desired N mi st ≤ bound →
      (fillLoop attr N mi desired bound st).isSome := by
  intro bound
  induction bound with
  | zero =>
    intro st hlen hband hm
    unfold fillLoop
    rw [if_neg ?_]
    · simp
    · intro hs
      have hP1 := ceil_part_pos (desired - st.sum) ε hε (by linarith)
      have h1 : Int.toNat ⌈(desired - st.sum) / ε⌉ * N = 0 := by
        unfold fillMeasure at hm
        omega
      rcases Nat.mul_eq_zero.mp h1 with h | h
      · omega
      · omega
  | succ b ih =>
    intro st hlen hband hm
    unfold fillLoop
    by_cases hs : st.sum < desired
    · rw [if_pos hs, if_neg (by omega : ¬ N = 0)]
      obtain ⟨st2, hstep, hpres, hcases⟩ := fillStep_spec attr N mi st hN hmi hlen
      rw [hstep]
      have hlen2 : N ≤ st2.pools.length := by rw [hpres.len]; exact hlen
      have hband2 : ∀ i p, i < N → st2.pools.get? i = some p →
          ε ≤ p.vmType.getAttrValue attr := by
        intro i p hi hp
        have hv := hpres.vms i
        rw [hp] at hv
        cases hq : st.pools.get? i with
        | none => rw [hq] at hv; exact absurd hv (by simp)
        | some q =>
          rw [hq] at hv
          have hvm : p.vmType = q.vmType := by simpa using hv
          rw [hvm]
          exact hband i q hi hq
      have hP1 : 1 ≤ Int.toNat ⌈(desired - st.sum) / ε⌉ :=
        ceil_part_pos _ ε hε (by linarith)
      have hd' : distTo mi (st2.idx % N) N < N :=
        distTo_lt _ _ _ hmi (Nat.mod_lt _ hN)
      have hmdec : fillMeasure ε desired N mi st2 ≤ b := by
        rcases hcases with ⟨hsum2, hidx2, hne⟩ | ⟨p, hp, hsum2⟩
        · obtain ⟨hstep_d, hd1⟩ := distTo_step N mi st.idx hN hmi hne
          unfold fillMeasure at hm ⊢
          rw [hsum2, hidx2]
          omega
        · have hk : st.idx % N < N := Nat.mod_lt _ hN
          have ha : ε ≤ p.vmType.getAttrValue attr := hband _ p hk hp
          have hdec := ceil_part_decrease (desired - st.sum)
            (p.vmType.getAttrValue attr) ε hε ha
          unfold fillMeasure at hm ⊢
          rw [hsum2]
          have heq : desired - (st.sum + p.vmType.getAttrValue attr) =
              desired - st.sum - p.vmType.getAttrValue attr := by ring
          rw [heq]
          rcases hdec with hdec | hdec
          · have hmul : Int.toNat ⌈(desired - st.sum -
                p.vmType.getAttrValue attr) / ε⌉ * N + N ≤
                Int.toNat ⌈(desired - st.sum) / ε⌉ * N := by
              calc Int.toNat ⌈(desired - st.sum -
                    p.vmType.getAttrValue attr) / ε⌉ * N + N =
                  (Int.toNat ⌈(desired - st.sum -
                    p.vmType.getAttrValue attr) / ε⌉ + 1) * N := by ring
                _ ≤ Int.toNat ⌈(desired - st.sum) / ε⌉ * N :=
                  Nat.mul_le_mul_right N hdec
            omega
          · rw [hdec]
            have hmul : N ≤ Int.toNat ⌈(desired - st.sum) / ε⌉ * N :=
              Nat.le_mul_of_pos_left N hP1
            omega
      exact ih st2 hlen2 hband2 hmdec
    · rw [if_neg hs]
      simp

theorem fillLoop_N0 (attr : String) (mi : ℕ) (desired : ℚ) :
    ∀ (fuel : ℕ) (st st' : FillState),
      fillLoop attr 0 mi desired fuel st = some st' →
      st' = st ∧ ¬ st.sum < desired := by
  intro fuel st st' h
  cases fuel with
  | zero =>
    unfold fillLoop at h
    by_cases hs : st.sum < desired
    · rw [if_pos hs] at h
      exact absurd h (by simp)
    · rw [if_neg hs] at h
      injection h with h
      exact ⟨h.symm, hs⟩
  | succ f =>
    unfold fillLoop at h
    by_cases hs : st.sum < desired
    · rw [if_pos hs, if_pos rfl] at h
      exact absurd h (by simp)
    · rw [if_neg hs] at h
      injection h with h
      exact ⟨h.symm, hs⟩

theorem fillSpotNodePools_spec (fuel : ℕ) (sv : ℚ) (N : ℕ)
    (nps r : List NodePool) (attr : String)
    (h : fillSpotNodePools fuel sv N nps attr = some r) :
    r.length = nps.length ∧
    (∀ i, (r.get? i).map (fun p => p.vmType) =
      (nps.get? i).map (fun p => p.vmType)) ∧
    (∀ i, (r.get? i).map (fun p => p.vmClass) =
      (nps.get? i).map (fun p => p.vmClass)) ∧
    (∀ i p p', nps.get? i = some p → r.get? i = some p' →
      p.sumNodes ≤ p'.sumNodes) ∧
    sumTake attr N nps + sv ≤ sumTake attr N r ∧
    r.drop N = nps.drop N := by
  unfold fillSpotNodePools at h
  cases hinit : fillInit attr nps N with
  | none => rw [hinit] at h; exact absurd h (by simp)
  | some t =>
    obtain ⟨s, mv, mi⟩ := t
    rw [hinit] at h
    dsimp only at h
    obtain ⟨hlen, hsum, hmiN, hmi0⟩ := fillInit_spec attr nps N s mv mi hinit
    cases hloop : fillLoop attr N mi (s + sv) fuel ⟨nps, s, mi⟩ with
    | none => rw [hloop] at h; exact absurd h (by simp)
    | some st' =>
      rw [hloop] at h
      injection h with h
      subst h
      cases Nat.eq_zero_or_pos N with
      | inl hN0 =>
        subst hN0
        obtain ⟨hst, hns⟩ := fillLoop_N0 attr mi (s + sv) fuel ⟨nps, s, mi⟩ st' hloop
        subst hst
        refine ⟨rfl, fun _ => rfl, fun _ => rfl,
          fun i p p' hp hp' => by rw [hp] at hp'; injection hp' with h2; rw [h2],
          ?_, rfl⟩
        have hs0 : s = 0 := by
          rw [hsum]
          simp [sumTake]
        simp only at hns
        rw [hs0] at hns
        unfold sumTake
        simp only [List.take_zero, List.map_nil, List.sum_nil]
        linarith
      | inr hNpos =>
        obtain ⟨hpres, hns⟩ :=
          fillLoop_spec attr N mi (s + sv) (hmiN hNpos) fuel ⟨nps, s, mi⟩ st'
            hlen hloop
        refine ⟨hpres.len, hpres.vms, hpres.cls, hpres.nodes, ?_, hpres.dropEq⟩
        have hcorr := hpres.sumCorr (by simpa using hsum)
        simp only at hcorr
        rw [← hcorr, ← hsum]
        linarith

theorem exists_pos_lb (attr : String) (l : List NodePool)
    (h : ∀ np ∈ l, 0 < np.vmType.getAttrValue attr) :
    ∃ ε : ℚ, 0 < ε ∧ ∀ np ∈ l, ε ≤ np.vmType.getAttrValue attr := by
  induction l with
  | nil => exact ⟨1, one_pos, by simp⟩
  | cons np t ih =>
    obtain ⟨ε, hε, hb⟩ := ih (fun x hx => h x (by simp [hx]))
    refine ⟨min ε (np.vmType.getAttrValue attr),
      lt_min hε (h np (by simp)), ?_⟩
    intro x hx
    rcases List.mem_cons.mp hx with rfl | hxt
    · exact min_le_right _ _
    · exact le_trans (min_le_left _ _) (hb x hxt)

/-! ## C7 — termination of the fill loop -/

/-- C7: for either anchor attribute, any fill width `N ≥ 1` not exceeding
the number of pools, and pools whose first `N` entries carry strictly
positive attribute values, the spot fill loop terminates: some fuel (and
hence every larger fuel) makes `fillSpotNodePools` return a result. -/
theorem C7_fill_terminates (attr : String) (N : ℕ) (nps : List NodePool)
    (sv : ℚ) (hattr : attr = Cpu ∨ attr = Memory)
    (hN : 1 ≤ N) (hlen : N ≤ nps.length)
    (hpos : ∀ np ∈ nps.take N, 0 < np.vmType.getAttrValue attr) :
    ∃ fuel r, fillSpotNodePools fuel sv N nps attr = some r := by
  obtain ⟨s, mv, mi, hinit⟩ := fillInit_isSome attr nps N hlen
  obtain ⟨-, hsum, hmiN, -⟩ := fillInit_spec attr nps N s mv mi hinit
  obtain ⟨ε, hε, hb⟩ := exists_pos_lb attr (nps.take N) hpos
  have hband : ∀ i p, i < N → nps.get? i = some p →
      ε ≤ p.vmType.getAttrValue attr := by
    intro i p hi hp
    apply hb
    apply List.get?_mem (n := i)
    rw [List.get?_take hi]
    exact hp
  have hloop := fillLoop_isSome attr N mi (s + sv) ε hN (hmiN hN) hε
    (fillMeasure ε (s + sv) N mi ⟨nps, s, mi⟩) ⟨nps, s, mi⟩ hlen hband le_rfl
  rw [Option.isSome_iff_exists] at hloop
  obtain ⟨st', hst'⟩ := hloop
  refine ⟨fillMeasure ε (s + sv) N mi ⟨nps, s, mi⟩, st'.pools, ?_⟩
  unfold fillSpotNodePools
  rw [hinit]
  dsimp only
  rw [hst']

/-- C7 (witness): a concrete one-pool fill of 2 cpus with a 4-cpu type. -/
theorem C7_fill_terminates_witness :
    ∃ fuel r,
      fillSpotNodePools fuel 2 1 [⟨sampleVm, 0, spot⟩] Cpu = some r :=
  C7_fill_terminates Cpu 1 [⟨sampleVm, 0, spot⟩] 2 (Or.inl rfl)
    le_rfl (by decide) (by decide)

theorem selectOnDemand_mem (attr : String) (v0 : VirtualMachine)
    (l : List VirtualMachine) :
    selectOnDemand attr v0 l = v0 ∨ selectOnDemand attr v0 l ∈ l := by
  unfold selectOnDemand
  induction l generalizing v0 with
  | nil => exact Or.inl rfl
  | cons x t ih =>
    simp only [List.foldl_cons]
    by_cases hc : x.onDemandPrice / x.getAttrValue attr <
        v0.onDemandPrice / v0.getAttrValue attr
    · rw [if_pos hc]
      rcases ih x with h | h
      · exact Or.inr (by rw [h]; simp)
      · exact Or.inr (by simp [h])
    · rw [if_neg hc]
      rcases ih v0 with h | h
      · exact Or.inl h
      · exact Or.inr (by simp [h])

theorem fill_mem_spec (fuel : ℕ) (sv : ℚ) (N : ℕ) (nps r : List NodePool)
    (attr : String) (h : fillSpotNodePools fuel sv N nps attr = some r) :
    ∀ x ∈ r, ∃ y ∈ nps, y.vmType = x.vmType ∧ y.vmClass = x.vmClass ∧
      y.sumNodes ≤ x.sumNodes := by
  obtain ⟨hlen, hvms, hcls, hnodes, -, -⟩ :=
    fillSpotNodePools_spec fuel sv N nps r attr h
  intro x hx
  obtain ⟨i, hi⟩ := List.mem_iff_get?.mp hx
  have hv := hvms i
  have hc := hcls i
  rw [hi] at hv hc
  cases hy : nps.get? i with
  | none => rw [hy] at hv; exact absurd hv (by simp)
  | some y =>
    rw [hy] at hv hc
    refine ⟨y, List.get?_mem hy, ?_, ?_, hnodes i y x hy hi⟩
    · simpa using hv.symm
    · simpa using hc.symm

theorem fillSpotNodePools_noop (fuel : ℕ) (sv : ℚ) (N : ℕ)
    (nps : List NodePool) (attr : String) (hsv : sv ≤ 0)
    (hlen : N ≤ nps.length) :
    fillSpotNodePools fuel sv N nps attr = some nps := by
  obtain ⟨s, mv, mi, hinit⟩ := fillInit_isSome attr nps N hlen
  unfold fillSpotNodePools
  rw [hinit]
  dsimp only
  have hguard : ¬ (s < s + sv) := by linarith
  cases fuel with
  | zero =>
    unfold fillLoop
    rw [if_neg hguard]
  | succ f =>
    unfold fillLoop
    rw [if_neg hguard]

theorem fillSpotNodePools_noop_of_some (fuel : ℕ) (sv : ℚ) (N : ℕ)
    (nps r : List NodePool) (attr : String)
    (h : fillSpotNodePools fuel sv N nps attr = some r) (hsv : sv ≤ 0) :
    r = nps := by
  unfold fillSpotNodePools at h
  cases hinit : fillInit attr nps N with
  | none => rw [hinit] at h; exact absurd h (by simp)
  | some t =>
    obtain ⟨s, mv, mi⟩ := t
    rw [hinit] at h
    dsimp only at h
    have hguard : ¬ (s < s + sv) := by linarith
    cases fuel with
    | zero =>
      unfold fillLoop at h
      rw [if_neg hguard] at h
      injection h with h
      exact h.symm
    | succ f =>
      unfold fillLoop at h
      rw [if_neg hguard] at h
      injection h with h
      exact h.symm

theorem planAttrSum_append (l1 l2 : List NodePool) (a : String) :
    planAttrSum (l1 ++ l2) a = planAttrSum l1 a + planAttrSum l2 a := by
  simp [planAttrSum]

theorem planAttrSum_take_drop (l : List NodePool) (a : String) (N : ℕ) :
    planAttrSum l a = planAttrSum (l.take N) a + planAttrSum (l.drop N) a := by
  rw [← planAttrSum_append, List.take_append_drop]

theorem planAttrSum_zero_nodes (l : List NodePool) (a : String)
    (h : ∀ np ∈ l, np.sumNodes = 0) : planAttrSum l a = 0 := by
  unfold planAttrSum
  apply List.sum_eq_zero
  intro x hx
  obtain ⟨np, hnp, rfl⟩ := List.mem_map.mp hx
  unfold NodePool.getSum
  rw [h np hnp]
  norm_num

theorem sumTake_eq_planAttrSum (attr : String) (N : ℕ) (l : List NodePool) :
    sumTake attr N l = planAttrSum (l.take N) attr := rfl

theorem seeds_facts (attr : String) (spotVms : List VirtualMachine) (k : ℕ) :
    ∀ np ∈ (List.map (fun vm => (⟨vm, 0, spot⟩ : NodePool))
      ((sortByAttrValue attr spotVms).take k)),
      np.sumNodes = 0 ∧ np.vmClass = spot ∧ np.vmType ∈ spotVms := by
  intro np hnp
  obtain ⟨vm, hvm, rfl⟩ := List.mem_map.mp hnp
  refine ⟨rfl, rfl, ?_⟩
  have h1 : vm ∈ sortByAttrValue attr spotVms := List.mem_of_mem_take hvm
  exact (List.perm_insertionSort _ spotVms).mem_iff.mp h1

theorem fill_cap (fuel : ℕ) (sv : ℚ) (N : ℕ) (seeds sp : List NodePool)
    (attr : String)
    (heq : fillSpotNodePools fuel sv N seeds attr = some sp)
    (h0 : ∀ np ∈ seeds, np.sumNodes = 0) :
    sv ≤ planAttrSum sp attr := by
  obtain ⟨-, -, -, -, hsum, hdrop⟩ :=
    fillSpotNodePools_spec fuel sv N seeds sp attr heq
  have htk : sumTake attr N seeds = 0 := by
    rw [sumTake_eq_planAttrSum]
    exact planAttrSum_zero_nodes _ _
      (fun np hnp => h0 np (List.mem_of_mem_take hnp))
  have hdr : planAttrSum (sp.drop N) attr = 0 := by
    rw [hdrop]
    exact planAttrSum_zero_nodes _ _
      (fun np hnp => h0 np (List.mem_of_mem_drop hnp))
  have := planAttrSum_take_drop sp attr N
  rw [← sumTake_eq_planAttrSum] at this
  rw [htk] at hsum
  linarith

theorem planAttrSum_cons (np : NodePool) (l : List NodePool) (a : String) :
    planAttrSum (np :: l) a = np.getSum a + planAttrSum l a := by
  simp [planAttrSum]

/-- The spine of `RecommendNodePools` on a standard request (no layout):
the requested anchor total is always covered by the returned pools; every
returned pool is either the single regular pool built from the cheapest
on-demand candidate by ceiling division or a spot pool over a spot
candidate with a non-negative node count; and at 100% on-demand the spot
pools all stay empty. -/
theorem RecommendNodePools_none_master
    (fuel : ℕ) (attr : String) (odVms spotVms : List VirtualMachine)
    (req : ClusterRecommendationReq) (r : List NodePool)
    (h : RecommendNodePools fuel attr odVms spotVms req none = some r) :
    req.sum attr ≤ planAttrSum r attr ∧
    (∀ np ∈ r,
      (∃ v0 rest, odVms = v0 :: rest ∧ np.vmClass = regular ∧
        np.vmType = selectOnDemand attr v0 (v0 :: rest) ∧
        np.sumNodes = ⌈req.sum attr * (req.onDemandPct : ℚ) / 100 /
          (selectOnDemand attr v0 (v0 :: rest)).getAttrValue attr⌉) ∨
      (np.vmClass = spot ∧ np.vmType ∈ spotVms ∧ 0 ≤ np.sumNodes)) ∧
    (req.onDemandPct = 100 →
      (∀ vm ∈ odVms, 0 < vm.getAttrValue attr) → odVms ≠ [] →
      0 ≤ req.sum attr →
      ∀ np ∈ r, np.vmClass = spot → np.sumNodes = 0) := by
  cases odVms with
  | nil =>
    unfold RecommendNodePools at h
    dsimp only at h
    split at h
    · exact absurd h (by simp)
    · rename_i sp heq
      injection h with h
      subst h
      simp only [Option.getD_none, List.filter_nil, List.nil_append,
        List.append_nil]
      have hcap := fill_cap _ _ _ _ _ _ heq
        (fun np hnp => (seeds_facts _ _ _ np hnp).1)
      refine ⟨by linarith, ?_, ?_⟩
      · intro np hnp
        obtain ⟨y, hy, hvm, hcls, hnn⟩ := fill_mem_spec _ _ _ _ _ _ heq np hnp
        obtain ⟨hy0, hyc, hyv⟩ := seeds_facts _ _ _ y hy
        exact Or.inr ⟨hcls ▸ hyc, hvm ▸ hyv, hy0 ▸ hnn⟩
      · intro _ _ hne _
        exact absurd rfl hne
  | cons v0 rest =>
    unfold RecommendNodePools at h
    dsimp only at h
    split at h
    · exact absurd h (by simp)
    · rename_i sp heq
      injection h with h
      subst h
      simp only [Option.getD_none, List.filter_nil, List.nil_append,
        List.append_nil, List.singleton_append]
      have hcap := fill_cap _ _ _ _ _ _ heq
        (fun np hnp => (seeds_facts _ _ _ np hnp).1)
      refine ⟨?_, ?_, ?_⟩
      · rw [planAttrSum_cons]
        have hgs : (NodePool.mk (selectOnDemand attr v0 (v0 :: rest))
            (⌈req.sum attr * (req.onDemandPct : ℚ) / 100 /
              (selectOnDemand attr v0 (v0 :: rest)).getAttrValue attr⌉)
            regular).getSum attr =
            ((⌈req.sum attr * (req.onDemandPct : ℚ) / 100 /
              (selectOnDemand attr v0 (v0 :: rest)).getAttrValue attr⌉ : ℤ) : ℚ) *
            (selectOnDemand attr v0 (v0 :: rest)).getAttrValue attr := rfl
        rw [hgs]
        have hcomm : (selectOnDemand attr v0 (v0 :: rest)).getAttrValue attr *
            ((⌈req.sum attr * (req.onDemandPct : ℚ) / 100 /
              (selectOnDemand attr v0 (v0 :: rest)).getAttrValue attr⌉ : ℤ) : ℚ) =
            ((⌈req.sum attr * (req.onDemandPct : ℚ) / 100 /
              (selectOnDemand attr v0 (v0 :: rest)).getAttrValue attr⌉ : ℤ) : ℚ) *
            (selectOnDemand attr v0 (v0 :: rest)).getAttrValue attr :=
          mul_comm _ _
        linarith [hcap]
      · intro np hnp
        rcases List.mem_cons.mp hnp with rfl | hnp2
        · exact Or.inl ⟨v0, rest, rfl, rfl, rfl, rfl⟩
        · obtain ⟨y, hy, hvm, hcls, hnn⟩ := fill_mem_spec _ _ _ _ _ _ heq np hnp2
          obtain ⟨hy0, hyc, hyv⟩ := seeds_facts _ _ _ y hy
          exact Or.inr ⟨hcls ▸ hyc, hvm ▸ hyv, hy0 ▸ hnn⟩
      · intro hpct hpos hne hsum np hnp hclass
        have hsel : selectOnDemand attr v0 (v0 :: rest) ∈ v0 :: rest := by
          rcases selectOnDemand_mem attr v0 (v0 :: rest) with h1 | h1
          · rw [h1]; simp
          · exact h1
        have ha : 0 < (selectOnDemand attr v0 (v0 :: rest)).getAttrValue attr :=
          hpos _ hsel
        have hsum100 : req.sum attr * (req.onDemandPct : ℚ) / 100 =
            req.sum attr := by
          rw [hpct]
          push_cast
          ring
        have hceil : req.sum attr ≤
            (selectOnDemand attr v0 (v0 :: rest)).getAttrValue attr *
            ((⌈req.sum attr * (req.onDemandPct : ℚ) / 100 /
              (selectOnDemand attr v0 (v0 :: rest)).getAttrValue attr⌉ : ℤ) : ℚ) := by
          rw [hsum100]
          calc req.sum attr =
              (selectOnDemand attr v0 (v0 :: rest)).getAttrValue attr *
                (req.sum attr /
                  (selectOnDemand attr v0 (v0 :: rest)).getAttrValue attr) := by
                rw [mul_div_cancel₀ _ (ne_of_gt ha)]
            _ ≤ _ :=
                mul_le_mul_of_nonneg_left (Int.le_ceil _) (le_of_lt ha)
        have hnoop := fillSpotNodePools_noop_of_some _ _ _ _ _ _ heq
          (by linarith)
        subst hnoop
        rcases List.mem_cons.mp hnp with rfl | hnp2
        · exact absurd hclass ((by decide : ¬ (regular = spot)))
        · exact (seeds_facts _ _ _ np hnp2).1

/-! ## C8 — onDemandPct extremes -/

/-- The request of the C8/C1 concrete examples: 4 cpus, 4 GB, one node,
zero percent on-demand. -/
def reqX : ClusterRecommendationReq :=
  ⟨4, 4, 1, 1, false, 0, [], 0, none, none, [], [], none⟩

theorem RNPevalCpu :
    RecommendNodePools 1 Cpu [sampleVm] [sampleVm] reqX none =
      some [⟨sampleVm, 0, regular⟩, ⟨sampleVm, 1, spot⟩] := by
  have h2 : selectOnDemand Cpu sampleVm [sampleVm] = sampleVm := by
    unfold selectOnDemand
    simp
  have h3 : (⌈reqX.sum Cpu * (reqX.onDemandPct : ℚ) / 100 /
      sampleVm.getAttrValue Cpu⌉ : ℤ) = 0 := by
    norm_num [reqX, ClusterRecommendationReq.sum, VirtualMachine.getAttrValue,
      sampleVm, Cpu]
  have hinit : fillInit Cpu [⟨sampleVm, 0, spot⟩] 1 = some (0, 0, 0) := by
    norm_num [fillInit, NodePool.getSum, VirtualMachine.getAttrValue,
      sampleVm, Cpu]
  have hloop : fillLoop Cpu 1 0 (0 + (reqX.sum Cpu - sampleVm.getAttrValue Cpu *
        ((0 : ℤ) : ℚ))) 1 ⟨[⟨sampleVm, 0, spot⟩], 0, 0⟩ =
      some ⟨[⟨sampleVm, 1, spot⟩], 0 + 4, 1⟩ := by
    norm_num [fillLoop, fillStep, NodePool.getSum, NodePool.getNextSum,
      VirtualMachine.getAttrValue, sampleVm, Cpu, reqX,
      ClusterRecommendationReq.sum]
  have hfill : fillSpotNodePools 1 (reqX.sum Cpu - sampleVm.getAttrValue Cpu *
        ((0 : ℤ) : ℚ)) 1 [⟨sampleVm, 0, spot⟩] Cpu =
      some [⟨sampleVm, 1, spot⟩] := by
    unfold fillSpotNodePools
    rw [hinit]
    dsimp only
    rw [hloop]
  have hN : (findN (avgSpotNodeCount reqX.minNodes reqX.maxNodes 0) ⊓
      ((List.length [sampleVm] : ℕ) : ℤ)).toNat = 1 := by
    norm_num [findN, avgSpotNodeCount, reqX]
  have hceil32 : (⌈(1 : ℚ) * (3 / 2)⌉ : ℤ) = 2 := by
    norm_num [Int.ceil_eq_iff]
  have hM : (findM (findN (avgSpotNodeCount reqX.minNodes reqX.maxNodes 0) ⊓
      ((List.length [sampleVm] : ℕ) : ℤ)) (List.length [sampleVm])).toNat = 1 := by
    norm_num [findN, avgSpotNodeCount, reqX, findM, hceil32]
  unfold RecommendNodePools
  dsimp only
  rw [h2, h3, hN, hM]
  have hseeds : List.map (fun vm => (⟨vm, 0, spot⟩ : NodePool))
      (List.take 1 (sortByAttrValue Cpu [sampleVm])) =
      [⟨sampleVm, 0, spot⟩] := rfl
  rw [hseeds, hfill]
  simp

/-- C8 (counterexample): on a standard request with `onDemandPct = 0` and
one candidate type, `RecommendNodePools` still returns a regular pool — it
merely has `sumNodes = 0`.  The claim says no regular pool is produced. -/
theorem C8_pct_counterexample :
    reqX.onDemandPct = 0 ∧
    RecommendNodePools 1 Cpu [sampleVm] [sampleVm] reqX none =
      some [⟨sampleVm, 0, regular⟩, ⟨sampleVm, 1, spot⟩] ∧
    (⟨sampleVm, 0, regular⟩ : NodePool) ∈
      [(⟨sampleVm, 0, regular⟩ : NodePool), ⟨sampleVm, 1, spot⟩] ∧
    (⟨sampleVm, 0, regular⟩ : NodePool).vmClass = regular :=
  ⟨rfl, RNPevalCpu, by simp, rfl⟩

/-- C8 (amended): on a standard request that yields a plan, `onDemandPct = 0`
produces no regular pool with a positive node count (the single regular
candidate pool is emitted with zero nodes), and `onDemandPct = 100`
produces no spot pool with a positive node count (the seeded spot pools
stay at zero nodes). -/
theorem C8_pct_extremes (fuel : ℕ) (attr : String)
    (odVms spotVms : List VirtualMachine) (req : ClusterRecommendationReq)
    (r : List NodePool)
    (hattr : attr = Cpu ∨ attr = Memory)
    (hpos : ∀ vm ∈ odVms, 0 < vm.getAttrValue attr)
    (hsum : 0 ≤ req.sum attr)
    (h : RecommendNodePools fuel attr odVms spotVms req none = some r) :
    (req.onDemandPct = 0 → ∀ np ∈ r, np.vmClass = regular → np.sumNodes = 0) ∧
    (req.onDemandPct = 100 → odVms ≠ [] →
      ∀ np ∈ r, np.vmClass = spot → np.sumNodes = 0) := by
  obtain ⟨-, hinv, hnoop⟩ :=
    RecommendNodePools_none_master fuel attr odVms spotVms req r h
  constructor
  · intro hpct np hnp hreg
    rcases hinv np hnp with ⟨v0, rest, -, -, -, hnod⟩ | ⟨hspot, -, -⟩
    · rw [hnod, hpct]
      push_cast
      norm_num
    · rw [hreg] at hspot
      exact absurd hspot (by decide)
  · intro hpct hne
    exact hnoop hpct hpos hne hsum

/-- The 100%-on-demand variant of the sample request. -/
def reqY : ClusterRecommendationReq := { reqX with onDemandPct := 100 }

/-- C8 (witness for the amended theorem): at 100% on-demand the returned
spot pool carries zero nodes. -/
theorem C8_pct_extremes_witness :
    (⟨sampleVm, 0, spot⟩ : NodePool).sumNodes = 0 := by
  have h2 : selectOnDemand Cpu sampleVm [sampleVm] = sampleVm := by
    unfold selectOnDemand
    simp
  have h3 : (⌈reqY.sum Cpu * (reqY.onDemandPct : ℚ) / 100 /
      sampleVm.getAttrValue Cpu⌉ : ℤ) = 1 := by
    norm_num [reqY, reqX, ClusterRecommendationReq.sum,
      VirtualMachine.getAttrValue, sampleVm, Cpu]
  have hN : (findN (avgSpotNodeCount reqY.minNodes reqY.maxNodes 1) ⊓
      ((List.length [sampleVm] : ℕ) : ℤ)).toNat = 0 := by
    norm_num [findN, avgSpotNodeCount, reqY, reqX]
  have hM : (findM (findN (avgSpotNodeCount reqY.minNodes reqY.maxNodes 1) ⊓
      ((List.length [sampleVm] : ℕ) : ℤ)) (List.length [sampleVm])).toNat = 1 := by
    norm_num [findN, avgSpotNodeCount, reqY, reqX, findM]
  have hfill : fillSpotNodePools 1 (reqY.sum Cpu - sampleVm.getAttrValue Cpu *
        ((1 : ℤ) : ℚ)) 0 [⟨sampleVm, 0, spot⟩] Cpu =
      some [⟨sampleVm, 0, spot⟩] := by
    unfold fillSpotNodePools
    rw [show fillInit Cpu [⟨sampleVm, 0, spot⟩] 0 = some (0, 0, 0) from rfl]
    dsimp only
    unfold fillLoop
    rw [if_neg (by norm_num [reqY, reqX, ClusterRecommendationReq.sum,
      VirtualMachine.getAttrValue, sampleVm, Cpu])]
  have heval : RecommendNodePools 1 Cpu [sampleVm] [sampleVm] reqY none =
      some [⟨sampleVm, 1, regular⟩, ⟨sampleVm, 0, spot⟩] := by
    unfold RecommendNodePools
    dsimp only
    rw [h2, h3, hN, hM]
    have hseeds : List.map (fun vm => (⟨vm, 0, spot⟩ : NodePool))
        (List.take 1 (sortByAttrValue Cpu [sampleVm])) =
        [⟨sampleVm, 0, spot⟩] := rfl
    rw [hseeds, hfill]
    simp
  exact (C8_pct_extremes 1 Cpu [sampleVm] [sampleVm] reqY _ (Or.inl rfl)
    (by
      intro vm hvm
      rw [List.mem_singleton] at hvm
      subst hvm
      norm_num [VirtualMachine.getAttrValue, sampleVm, Cpu])
    (by norm_num [ClusterRecommendationReq.sum, reqY, reqX, Cpu])
    heval).2 rfl (by simp) ⟨sampleVm, 0, spot⟩ (by simp) rfl

/-! ## C1 — capacity of returned plans -/

theorem RecommendVms_subset (vms : List VirtualMachine)
    (filters : List VmFilter) (req : ClusterRecommendationReq) :
    ∀ vm, (vm ∈ (RecommendVms vms filters req none).1 ∨
           vm ∈ (RecommendVms vms filters req none).2) →
      vm ∈ vms ∧ filtersApply vm filters req = true := by
  intro vm hvm
  unfold RecommendVms at hvm
  by_cases hemp : (vms.filter (fun vm => filtersApply vm filters req)).length = 0
  · rw [if_pos hemp] at hvm
    simp at hvm
  · rw [if_neg hemp] at hvm
    dsimp only at hvm
    by_cases hpct : req.onDemandPct < 100
    · rw [if_pos hpct] at hvm
      by_cases hsp : (filterSpots
          (vms.filter (fun vm => filtersApply vm filters req))).length = 0
      · rw [if_pos hsp] at hvm
        simp at hvm
      · rw [if_neg hsp] at hvm
        have hmem : vm ∈ vms.filter (fun vm => filtersApply vm filters req) := by
          rcases hvm with h | h
          · exact h
          · exact List.mem_of_mem_filter h
        have := List.mem_filter.mp hmem
        exact ⟨this.1, by simpa using this.2⟩
    · rw [if_neg hpct] at hvm
      have hmem : vm ∈ vms.filter (fun vm => filtersApply vm filters req) := by
        rcases hvm with h | h
        · exact h
        · exact h
      have := List.mem_filter.mp hmem
      exact ⟨this.1, by simpa using this.2⟩

theorem filtersApply_ratio_cpu (vm : VirtualMachine)
    (pf : List VmFilter) (req : ClusterRecommendationReq)
    (h : filtersApply vm ([includesFilter, excludesFilter] ++ pf ++
      [minMemRatioFilter]) req = true)
    (hcpus : 0 < vm.cpus) (hsumCpu : 0 < req.sumCpu) :
    req.sumMem * vm.cpus ≤ vm.mem * req.sumCpu := by
  unfold filtersApply at h
  rw [List.all_eq_true] at h
  have hf := h minMemRatioFilter (by simp)
  unfold minMemRatioFilter at hf
  simp only [decide_eq_true_eq, not_lt] at hf
  calc req.sumMem * vm.cpus = (req.sumMem / req.sumCpu) * vm.cpus * req.sumCpu := by
        field_simp
    _ ≤ (vm.mem / vm.cpus) * vm.cpus * req.sumCpu := by
        apply mul_le_mul_of_nonneg_right ?_ (le_of_lt hsumCpu)
        exact mul_le_mul_of_nonneg_right hf (le_of_lt hcpus)
    _ = vm.mem * req.sumCpu := by
        field_simp

theorem filtersApply_ratio_mem (vm : VirtualMachine)
    (pf : List VmFilter) (req : ClusterRecommendationReq)
    (h : filtersApply vm ([includesFilter, excludesFilter] ++ pf ++
      [minCpuRatioFilter]) req = true)
    (hmem : 0 < vm.mem) (hsumMem : 0 < req.sumMem) :
    req.sumCpu * vm.mem ≤ vm.cpus * req.sumMem := by
  unfold filtersApply at h
  rw [List.all_eq_true] at h
  have hf := h minCpuRatioFilter (by simp)
  unfold minCpuRatioFilter at hf
  simp only [decide_eq_true_eq, not_lt] at hf
  calc req.sumCpu * vm.mem = (req.sumCpu / req.sumMem) * vm.mem * req.sumMem := by
        field_simp
    _ ≤ (vm.cpus / vm.mem) * vm.mem * req.sumMem := by
        apply mul_le_mul_of_nonneg_right ?_ (le_of_lt hsumMem)
        exact mul_le_mul_of_nonneg_right hf (le_of_lt hmem)
    _ = vm.cpus * req.sumMem := by
        field_simp

theorem planAttrSum_ratio (r : List NodePool) (attrA attrB : String) (c : ℚ)
    (h : ∀ np ∈ r, 0 ≤ (np.sumNodes : ℚ) ∧
      c * np.vmType.getAttrValue attrA ≤ np.vmType.getAttrValue attrB) :
    c * planAttrSum r attrA ≤ planAttrSum r attrB := by
  induction r with
  | nil => simp [planAttrSum]
  | cons np l ih =>
    rw [planAttrSum_cons, planAttrSum_cons, mul_add]
    obtain ⟨hn, hr⟩ := h np (by simp)
    have hrest := ih (fun x hx => h x (by simp [hx]))
    have hone : c * np.getSum attrA ≤ np.getSum attrB := by
      unfold NodePool.getSum
      calc c * ((np.sumNodes : ℚ) * np.vmType.getAttrValue attrA) =
          (np.sumNodes : ℚ) * (c * np.vmType.getAttrValue attrA) := by ring
        _ ≤ (np.sumNodes : ℚ) * np.vmType.getAttrValue attrB :=
          mul_le_mul_of_nonneg_left hr hn
    linarith

theorem findCheapest_fold_mem (l : List (String × List NodePool)) :
    ∀ acc : List NodePool × ℚ,
      (l.foldl (fun acc entry =>
        let sumPrice := planPrice entry.2
        if acc.2 = 0 ∨ acc.2 > sumPrice then (entry.2, sumPrice) else acc)
        acc).1 = acc.1 ∨
      ∃ e ∈ l, (l.foldl (fun acc entry =>
        let sumPrice := planPrice entry.2
        if acc.2 = 0 ∨ acc.2 > sumPrice then (entry.2, sumPrice) else acc)
        acc).1 = e.2 := by
  induction l with
  | nil => intro acc; exact Or.inl rfl
  | cons x t ih =>
    intro acc
    simp only [List.foldl_cons]
    by_cases hc : acc.2 = 0 ∨ acc.2 > planPrice x.2
    · rw [if_pos hc]
      rcases ih (x.2, planPrice x.2) with h | ⟨e, he, h⟩
      · exact Or.inr ⟨x, by simp, h⟩
      · exact Or.inr ⟨e, by simp [he], h⟩
    · rw [if_neg hc]
      rcases ih acc with h | ⟨e, he, h⟩
      · exact Or.inl h
      · exact Or.inr ⟨e, by simp [he], h⟩

theorem findCheapest_mem (l : List (String × List NodePool)) (hne : l ≠ []) :
    ∃ e ∈ l, findCheapestNodePoolSet l = e.2 := by
  cases l with
  | nil => exact absurd rfl hne
  | cons x t =>
    unfold findCheapestNodePoolSet
    simp only [List.foldl_cons]
    rw [if_pos (Or.inl trivial)]
    rcases findCheapest_fold_mem t (x.2, planPrice x.2) with h | ⟨e, he, h⟩
    · exact ⟨x, by simp, h⟩
    · exact ⟨e, by simp [he], h⟩

theorem getAttrValue_cpu (v : VirtualMachine) : v.getAttrValue Cpu = v.cpus :=
  rfl

theorem getAttrValue_mem (v : VirtualMachine) :
    v.getAttrValue Memory = v.mem := by
  unfold VirtualMachine.getAttrValue
  rw [if_neg (by decide), if_pos rfl]

theorem req_sum_cpu (req : ClusterRecommendationReq) :
    req.sum Cpu = req.sumCpu := rfl

theorem req_sum_mem (req : ClusterRecommendationReq) :
    req.sum Memory = req.sumMem := by
  unfold ClusterRecommendationReq.sum
  rw [if_neg (by decide), if_pos rfl]

theorem clusterStep_capacity (fuel : ℕ) (provider : String)
    (pf : List VmFilter) (attr : String) (vms : List VirtualMachine)
    (req req2 : ClusterRecommendationReq) (nps : List NodePool)
    (hattr : attr = Cpu ∨ attr = Memory)
    (hpos : ∀ vm ∈ vms, 0 < vm.cpus ∧ 0 < vm.mem)
    (hcpu : 0 < req.sumCpu) (hmem : 0 < req.sumMem)
    (hpct : 0 ≤ req.onDemandPct)
    (h : clusterStep fuel provider pf attr vms req = some (req2, some nps)) :
    req.sumCpu ≤ planAttrSum nps Cpu ∧ req.sumMem ≤ planAttrSum nps Memory ∧
    req2.sumCpu = req.sumCpu ∧ req2.sumMem = req.sumMem ∧
    0 ≤ req2.onDemandPct := by
  have hreq2 : ∀ q : ClusterRecommendationReq,
      (if provider = "oracle" then { q with onDemandPct := 100 } else q).sumCpu
        = q.sumCpu ∧
      (if provider = "oracle" then { q with onDemandPct := 100 } else q).sumMem
        = q.sumMem ∧
      (0 ≤ q.onDemandPct →
        0 ≤ (if provider = "oracle" then { q with onDemandPct := 100 }
          else q).onDemandPct) := by
    intro q
    by_cases hp : provider = "oracle"
    · rw [if_pos hp]
      exact ⟨rfl, rfl, fun _ => by norm_num⟩
    · rw [if_neg hp]
      exact ⟨rfl, rfl, fun hq => hq⟩
  rcases hattr with rfl | rfl
  · unfold clusterStep at h
    rw [show filtersForAttr Cpu pf = some ([includesFilter, excludesFilter] ++
        pf ++ [minMemRatioFilter]) from by unfold filtersForAttr; rw [if_pos rfl]]
      at h
    dsimp only at h
    cases hRV : RecommendVms vms ([includesFilter, excludesFilter] ++ pf ++
        [minMemRatioFilter]) req none with
    | mk odVms spotVms =>
      rw [hRV] at h
      dsimp only at h
      by_cases hguard : (odVms.length = 0 ∧ req.onDemandPct > 0) ∨
          (spotVms.length = 0 ∧ req.onDemandPct < 100)
      · rw [if_pos hguard] at h
        injection h with h1
        exact absurd (congrArg Prod.snd h1) (by simp)
      · rw [if_neg hguard] at h
        cases hRNP : RecommendNodePools fuel Cpu odVms spotVms
            (if provider = "oracle" then { req with onDemandPct := 100 }
              else req) none with
        | none => rw [hRNP] at h; exact absurd h (by simp)
        | some nps2 =>
          rw [hRNP] at h
          injection h with h1
          have hreq2e : req2 = (if provider = "oracle" then
              { req with onDemandPct := 100 } else req) :=
            (congrArg Prod.fst h1).symm
          have hnps : nps = nps2 := by
            have := congrArg Prod.snd h1
            simpa using this.symm
          rw [hnps]
          obtain ⟨hm1, hm2, -⟩ := RecommendNodePools_none_master fuel Cpu
            odVms spotVms _ nps2 hRNP
          obtain ⟨hs1, hs2, hs3⟩ := hreq2 req
          have hsub : ∀ vm, vm ∈ odVms ∨ vm ∈ spotVms →
              vm ∈ vms ∧ filtersApply vm ([includesFilter, excludesFilter] ++
                pf ++ [minMemRatioFilter]) req = true := by
            intro vm hvm
            apply RecommendVms_subset vms _ req vm
            rw [hRV]
            exact hvm
          have hpool : ∀ np ∈ nps2, 0 ≤ (np.sumNodes : ℚ) ∧
              (req.sumMem / req.sumCpu) * np.vmType.getAttrValue Cpu ≤
                np.vmType.getAttrValue Memory := by
            intro np hnp
            have hratio : ∀ vm, vm ∈ odVms ∨ vm ∈ spotVms →
                (req.sumMem / req.sumCpu) * vm.getAttrValue Cpu ≤
                  vm.getAttrValue Memory := by
              intro vm hvm
              obtain ⟨hvmem, hfa⟩ := hsub vm hvm
              have := filtersApply_ratio_cpu vm pf req hfa
                (hpos vm hvmem).1 hcpu
              rw [getAttrValue_cpu, getAttrValue_mem, div_mul_eq_mul_div,
                div_le_iff hcpu]
              linarith
            rcases hm2 np hnp with ⟨v0, rest, hod, -, hvm, hnod⟩ |
              ⟨-, hvmmem, hnn⟩
            · have hselmem : selectOnDemand Cpu v0 (v0 :: rest) ∈ odVms := by
                rw [hod]
                rcases selectOnDemand_mem Cpu v0 (v0 :: rest) with h1 | h1
                · rw [h1]; simp
                · exact h1
              constructor
              · rw [hnod]
                have hnum : 0 ≤ ((if provider = "oracle" then
                    { req with onDemandPct := 100 } else req).sum Cpu *
                    ((if provider = "oracle" then { req with onDemandPct := 100 }
                      else req).onDemandPct : ℚ) / 100 /
                    (selectOnDemand Cpu v0 (v0 :: rest)).getAttrValue Cpu) := by
                  apply div_nonneg
                  apply div_nonneg
                  · apply mul_nonneg
                    · rw [req_sum_cpu, hs1]
                      linarith
                    · exact_mod_cast hs3 hpct
                  · norm_num
                  · rw [getAttrValue_cpu]
                    exact le_of_lt (hpos _ (hsub _ (Or.inl hselmem)).1).1
                exact_mod_cast Int.ceil_nonneg hnum
              · rw [hvm]
                exact hratio _ (Or.inl hselmem)
            · exact ⟨by exact_mod_cast hnn, hratio _ (Or.inr hvmmem)⟩
          have hanchor : req.sumCpu ≤ planAttrSum nps2 Cpu := by
            rw [req_sum_cpu, hs1] at hm1
            exact hm1
          refine ⟨hanchor, ?_, by rw [hreq2e]; exact hs1,
            by rw [hreq2e]; exact hs2, by rw [hreq2e]; exact hs3 hpct⟩
          have hr := planAttrSum_ratio nps2 Cpu Memory
            (req.sumMem / req.sumCpu) hpool
          have hc : 0 ≤ req.sumMem / req.sumCpu :=
            div_nonneg (le_of_lt hmem) (le_of_lt hcpu)
          have h1 : req.sumMem / req.sumCpu * req.sumCpu ≤
              req.sumMem / req.sumCpu * planAttrSum nps2 Cpu :=
            mul_le_mul_of_nonneg_left hanchor hc
          rw [div_mul_cancel₀ _ (ne_of_gt hcpu)] at h1
          linarith
  · unfold clusterStep at h
    rw [show filtersForAttr Memory pf = some ([includesFilter, excludesFilter]
        ++ pf ++ [minCpuRatioFilter]) from by
      unfold filtersForAttr; rw [if_neg (by decide), if_pos rfl]] at h
    dsimp only at h
    cases hRV : RecommendVms vms ([includesFilter, excludesFilter] ++ pf ++
        [minCpuRatioFilter]) req none with
    | mk odVms spotVms =>
      rw [hRV] at h
      dsimp only at h
      by_cases hguard : (odVms.length = 0 ∧ req.onDemandPct > 0) ∨
          (spotVms.length = 0 ∧ req.onDemandPct < 100)
      · rw [if_pos hguard] at h
        injection h with h1
        exact absurd (congrArg Prod.snd h1) (by simp)
      · rw [if_neg hguard] at h
        cases hRNP : RecommendNodePools fuel Memory odVms spotVms
            (if provider = "oracle" then { req with onDemandPct := 100 }
              else req) none with
        | none => rw [hRNP] at h; exact absurd h (by simp)
        | some nps2 =>
          rw [hRNP] at h
          injection h with h1
          have hreq2e : req2 = (if provider = "oracle" then
              { req with onDemandPct := 100 } else req) :=
            (congrArg Prod.fst h1).symm
          have hnps : nps = nps2 := by
            have := congrArg Prod.snd h1
            simpa using this.symm
          rw [hnps]
          obtain ⟨hm1, hm2, -⟩ := RecommendNodePools_none_master fuel Memory
            odVms spotVms _ nps2 hRNP
          obtain ⟨hs1, hs2, hs3⟩ := hreq2 req
          have hsub : ∀ vm, vm ∈ odVms ∨ vm ∈ spotVms →
              vm ∈ vms ∧ filtersApply vm ([includesFilter, excludesFilter] ++
                pf ++ [minCpuRatioFilter]) req = true := by
            intro vm hvm
            apply RecommendVms_subset vms _ req vm
            rw [hRV]
            exact hvm
          have hpool : ∀ np ∈ nps2, 0 ≤ (np.sumNodes : ℚ) ∧
              (req.sumCpu / req.sumMem) * np.vmType.getAttrValue Memory ≤
                np.vmType.getAttrValue Cpu := by
            intro np hnp
            have hratio : ∀ vm, vm ∈ odVms ∨ vm ∈ spotVms →
                (req.sumCpu / req.sumMem) * vm.getAttrValue Memory ≤
                  vm.getAttrValue Cpu := by
              intro vm hvm
              obtain ⟨hvmem, hfa⟩ := hsub vm hvm
              have := filtersApply_ratio_mem vm pf req hfa
                (hpos vm hvmem).2 hmem
              rw [getAttrValue_cpu, getAttrValue_mem, div_mul_eq_mul_div,
                div_le_iff hmem]
              linarith
            rcases hm2 np hnp with ⟨v0, rest, hod, -, hvm, hnod⟩ |
              ⟨-, hvmmem, hnn⟩
            · have hselmem : selectOnDemand Memory v0 (v0 :: rest) ∈ odVms := by
                rw [hod]
                rcases selectOnDemand_mem Memory v0 (v0 :: rest) with h1 | h1
                · rw [h1]; simp
                · exact h1
              constructor
              · rw [hnod]
                have hnum : 0 ≤ ((if provider = "oracle" then
                    { req with onDemandPct := 100 } else req).sum Memory *
                    ((if provider = "oracle" then { req with onDemandPct := 100 }
                      else req).onDemandPct : ℚ) / 100 /
                    (selectOnDemand Memory v0 (v0 :: rest)).getAttrValue
                      Memory) := by
                  apply div_nonneg
                  apply div_nonneg
                  · apply mul_nonneg
                    · rw [req_sum_mem, hs2]
                      linarith
                    · exact_mod_cast hs3 hpct
                  · norm_num
                  · rw [getAttrValue_mem]
                    exact le_of_lt (hpos _ (hsub _ (Or.inl hselmem)).1).2
                exact_mod_cast Int.ceil_nonneg hnum
              · rw [hvm]
                exact hratio _ (Or.inl hselmem)
            · exact ⟨by exact_mod_cast hnn, hratio _ (Or.inr hvmmem)⟩
          have hanchor : req.sumMem ≤ planAttrSum nps2 Memory := by
            rw [req_sum_mem, hs2] at hm1
            exact hm1
          refine ⟨?_, hanchor, by rw [hreq2e]; exact hs1,
            by rw [hreq2e]; exact hs2, by rw [hreq2e]; exact hs3 hpct⟩
          have hr := planAttrSum_ratio nps2 Memory Cpu
            (req.sumCpu / req.sumMem) hpool
          have hc : 0 ≤ req.sumCpu / req.sumMem :=
            div_nonneg (le_of_lt hcpu) (le_of_lt hmem)
          have h1 : req.sumCpu / req.sumMem * req.sumMem ≤
              req.sumCpu / req.sumMem * planAttrSum nps2 Memory :=
            mul_le_mul_of_nonneg_left hanchor hc
          rw [div_mul_cancel₀ _ (ne_of_gt hmem)] at h1
          linarith

theorem clusterStep_none (fuel : ℕ) (provider : String) (pf : List VmFilter)
    (attr : String) (vms : List VirtualMachine)
    (req req2 : ClusterRecommendationReq)
    (h : clusterStep fuel provider pf attr vms req = some (req2, none)) :
    req2 = req := by
  unfold clusterStep at h
  cases hf : filtersForAttr attr pf with
  | none =>
    rw [hf] at h
    dsimp only at h
    injection h with h1
    exact (congrArg Prod.fst h1).symm
  | some fl =>
    rw [hf] at h
    dsimp only at h
    cases hRV : RecommendVms vms fl req none with
    | mk odVms spotVms =>
      rw [hRV] at h
      dsimp only at h
      by_cases hguard : (odVms.length = 0 ∧ req.onDemandPct > 0) ∨
          (spotVms.length = 0 ∧ req.onDemandPct < 100)
      · rw [if_pos hguard] at h
        injection h with h1
        exact (congrArg Prod.fst h1).symm
      · rw [if_neg hguard] at h
        cases hRNP : RecommendNodePools fuel attr odVms spotVms
            (if provider = "oracle" then { req with onDemandPct := 100 }
              else req) none with
        | none => rw [hRNP] at h; exact absurd h (by simp)
        | some nps2 =>
          rw [hRNP] at h
          injection h with h1
          exact absurd (congrArg Prod.snd h1) (by simp)

/-- C1: for a standard request (candidate sets given per anchor, positive
vm sizes, `sumCpu, sumMem ≥ 1`, `1 ≤ minNodes ≤ maxNodes`,
`onDemandPct ∈ [0, 100]`) on which the engine returns a plan, the plan
covers both requested totals: the node-weighted cpu capacity is at least
`sumCpu` and the node-weighted memory capacity at least `sumMem`. -/
theorem C1_capacity (fuel : ℕ) (provider : String) (pf : List VmFilter)
    (cpuVms memVms : List VirtualMachine) (req : ClusterRecommendationReq)
    (plan : List NodePool)
    (hcpu : 1 ≤ req.sumCpu) (hmem : 1 ≤ req.sumMem)
    (hminmax : 1 ≤ req.minNodes ∧ req.minNodes ≤ req.maxNodes)
    (hpct : 0 ≤ req.onDemandPct ∧ req.onDemandPct ≤ 100)
    (hpos : ∀ vm ∈ cpuVms ++ memVms, 0 < vm.cpus ∧ 0 < vm.mem)
    (h : RecommendClusterStd fuel provider pf cpuVms memVms req = some plan) :
    req.sumCpu ≤ planAttrSum plan Cpu ∧
    req.sumMem ≤ planAttrSum plan Memory := by
  have hposc : ∀ vm ∈ cpuVms, 0 < vm.cpus ∧ 0 < vm.mem :=
    fun vm hv => hpos vm (by simp [hv])
  have hposm : ∀ vm ∈ memVms, 0 < vm.cpus ∧ 0 < vm.mem :=
    fun vm hv => hpos vm (by simp [hv])
  unfold RecommendClusterStd at h
  cases h1 : clusterStep fuel provider pf Cpu cpuVms req with
  | none => rw [h1] at h; exact absurd h (by simp)
  | some s1 =>
    obtain ⟨req2, cpuPlan⟩ := s1
    rw [h1] at h
    dsimp only at h
    cases h2 : clusterStep fuel provider pf Memory memVms req2 with
    | none => rw [h2] at h; exact absurd h (by simp)
    | some s2 =>
      obtain ⟨req3, memPlan⟩ := s2
      rw [h2] at h
      dsimp only at h
      -- the capacities of the individual anchor plans
      have hcpuCap : ∀ p, cpuPlan = some p →
          req.sumCpu ≤ planAttrSum p Cpu ∧ req.sumMem ≤ planAttrSum p Memory ∧
          req2.sumCpu = req.sumCpu ∧ req2.sumMem = req.sumMem ∧
          0 ≤ req2.onDemandPct := by
        intro p hp
        rw [hp] at h1
        exact clusterStep_capacity fuel provider pf Cpu cpuVms req req2 p
          (Or.inl rfl) hposc (by linarith) (by linarith) hpct.1 h1
      have hreq2facts : req2.sumCpu = req.sumCpu ∧ req2.sumMem = req.sumMem ∧
          0 ≤ req2.onDemandPct := by
        cases hcp : cpuPlan with
        | none =>
          rw [hcp] at h1
          have := clusterStep_none fuel provider pf Cpu cpuVms req req2 h1
          rw [this]
          exact ⟨rfl, rfl, hpct.1⟩
        | some p =>
          obtain ⟨-, -, ha, hb, hc⟩ := hcpuCap p hcp
          exact ⟨ha, hb, hc⟩
      have hmemCap : ∀ p, memPlan = some p →
          req.sumCpu ≤ planAttrSum p Cpu ∧ req.sumMem ≤ planAttrSum p Memory := by
        intro p hp
        rw [hp] at h2
        obtain ⟨ha, hb, hc⟩ := hreq2facts
        have := clusterStep_capacity fuel provider pf Memory memVms req2 req3 p
          (Or.inr rfl) hposm (by linarith) (by linarith) hc h2
        rw [ha, hb] at this
        exact ⟨this.1, this.2.1⟩
      -- the chosen plan is one of the collected plans
      cases hcp : cpuPlan with
      | none =>
        cases hmp : memPlan with
        | none =>
          rw [hcp, hmp] at h
          exact absurd h (by simp)
        | some pm =>
          rw [hcp, hmp] at h
          simp only [List.nil_append, List.length_cons, List.length_nil] at h
          rw [if_neg (by simp)] at h
          injection h with h
          obtain ⟨e, he, heq⟩ := findCheapest_mem [(Memory, pm)] (by simp)
          rw [List.mem_singleton] at he
          subst he
          rw [← h, heq]
          exact hmemCap pm hmp
      | some pc =>
        cases hmp : memPlan with
        | none =>
          rw [hcp, hmp] at h
          simp only [List.append_nil, List.length_cons, List.length_nil] at h
          rw [if_neg (by simp)] at h
          injection h with h
          obtain ⟨e, he, heq⟩ := findCheapest_mem [(Cpu, pc)] (by simp)
          rw [List.mem_singleton] at he
          subst he
          rw [← h, heq]
          obtain ⟨ha, hb, -⟩ := hcpuCap pc hcp
          exact ⟨ha, hb⟩
        | some pm =>
          rw [hcp, hmp] at h
          simp only [List.cons_append, List.nil_append, List.length_cons,
            List.length_nil] at h
          rw [if_neg (by simp)] at h
          injection h with h
          obtain ⟨e, he, heq⟩ := findCheapest_mem [(Cpu, pc), (Memory, pm)]
            (by simp)
          rcases List.mem_cons.mp he with rfl | he2
          · rw [← h, heq]
            obtain ⟨ha, hb, -⟩ := hcpuCap pc hcp
            exact ⟨ha, hb⟩
          · rw [List.mem_singleton] at he2
            subst he2
            rw [← h, heq]
            exact hmemCap pm hmp

theorem RNPevalMem :
    RecommendNodePools 1 Memory [sampleVm] [sampleVm] reqX none =
      some [⟨sampleVm, 0, regular⟩, ⟨sampleVm, 1, spot⟩] := by
  have h2 : selectOnDemand Memory sampleVm [sampleVm] = sampleVm := by
    unfold selectOnDemand
    simp
  have h3 : (⌈reqX.sum Memory * (reqX.onDemandPct : ℚ) / 100 /
      sampleVm.getAttrValue Memory⌉ : ℤ) = 0 := by
    rw [req_sum_mem, getAttrValue_mem]
    norm_num [reqX, sampleVm]
  have hinit : fillInit Memory [⟨sampleVm, 0, spot⟩] 1 = some (0, 0, 0) := by
    norm_num [fillInit, NodePool.getSum, getAttrValue_mem, sampleVm]
  have hloop : fillLoop Memory 1 0 (0 + (reqX.sum Memory -
        sampleVm.getAttrValue Memory * ((0 : ℤ) : ℚ))) 1
        ⟨[⟨sampleVm, 0, spot⟩], 0, 0⟩ =
      some ⟨[⟨sampleVm, 1, spot⟩], 0 + 4, 1⟩ := by
    norm_num [fillLoop, fillStep, NodePool.getSum, NodePool.getNextSum,
      getAttrValue_mem, req_sum_mem, sampleVm, reqX]
  have hfill : fillSpotNodePools 1 (reqX.sum Memory -
        sampleVm.getAttrValue Memory * ((0 : ℤ) : ℚ)) 1
        [⟨sampleVm, 0, spot⟩] Memory =
      some [⟨sampleVm, 1, spot⟩] := by
    unfold fillSpotNodePools
    rw [hinit]
    dsimp only
    rw [hloop]
  have hN : (findN (avgSpotNodeCount reqX.minNodes reqX.maxNodes 0) ⊓
      ((List.length [sampleVm] : ℕ) : ℤ)).toNat = 1 := by
    norm_num [findN, avgSpotNodeCount, reqX]
  have hceil32 : (⌈(1 : ℚ) * (3 / 2)⌉ : ℤ) = 2 := by
    norm_num [Int.ceil_eq_iff]
  have hM : (findM (findN (avgSpotNodeCount reqX.minNodes reqX.maxNodes 0) ⊓
      ((List.length [sampleVm] : ℕ) : ℤ)) (List.length [sampleVm])).toNat = 1 := by
    norm_num [findN, avgSpotNodeCount, reqX, findM, hceil32]
  unfold RecommendNodePools
  dsimp only
  rw [h2, h3, hN, hM]
  have hseeds : List.map (fun vm => (⟨vm, 0, spot⟩ : NodePool))
      (List.take 1 (sortByAttrValue Memory [sampleVm])) =
      [⟨sampleVm, 0, spot⟩] := rfl
  rw [hseeds, hfill]
  simp

theorem RVevalCpu :
    RecommendVms [sampleVm] ([includesFilter, excludesFilter] ++ [] ++
      [minMemRatioFilter]) reqX none = ([sampleVm], [sampleVm]) := by
  have hfa : filtersApply sampleVm ([includesFilter, excludesFilter] ++ [] ++
      [minMemRatioFilter]) reqX = true := by
    norm_num [filtersApply, includesFilter, excludesFilter, minMemRatioFilter,
      containsStr, reqX, sampleVm]
  unfold RecommendVms
  rw [show List.filter (fun vm => filtersApply vm ([includesFilter,
      excludesFilter] ++ [] ++ [minMemRatioFilter]) reqX) [sampleVm] =
      [sampleVm] from by rw [List.filter_cons_of_pos (by exact hfa)]; rfl]
  norm_num [filterSpots, sampleVm, reqX]

theorem RVevalMem :
    RecommendVms [sampleVm] ([includesFilter, excludesFilter] ++ [] ++
      [minCpuRatioFilter]) reqX none = ([sampleVm], [sampleVm]) := by
  have hfa : filtersApply sampleVm ([includesFilter, excludesFilter] ++ [] ++
      [minCpuRatioFilter]) reqX = true := by
    norm_num [filtersApply, includesFilter, excludesFilter, minCpuRatioFilter,
      containsStr, reqX, sampleVm]
  unfold RecommendVms
  rw [show List.filter (fun vm => filtersApply vm ([includesFilter,
      excludesFilter] ++ [] ++ [minCpuRatioFilter]) reqX) [sampleVm] =
      [sampleVm] from by rw [List.filter_cons_of_pos (by exact hfa)]; rfl]
  norm_num [filterSpots, sampleVm, reqX]

theorem stepEvalCpu :
    clusterStep 1 "aws" [] Cpu [sampleVm] reqX =
      some (reqX, some [⟨sampleVm, 0, regular⟩, ⟨sampleVm, 1, spot⟩]) := by
  unfold clusterStep
  rw [show filtersForAttr Cpu [] = some ([includesFilter, excludesFilter] ++
      [] ++ [minMemRatioFilter]) from by unfold filtersForAttr; rw [if_pos rfl]]
  dsimp only
  rw [RVevalCpu]
  dsimp only
  rw [if_neg (by decide)]
  rw [show (if ("aws" : String) = "oracle" then
      { reqX with onDemandPct := 100 } else reqX) = reqX from
    if_neg (by decide)]
  rw [RNPevalCpu]

theorem stepEvalMem :
    clusterStep 1 "aws" [] Memory [sampleVm] reqX =
      some (reqX, some [⟨sampleVm, 0, regular⟩, ⟨sampleVm, 1, spot⟩]) := by
  unfold clusterStep
  rw [show filtersForAttr Memory [] = some ([includesFilter, excludesFilter] ++
      [] ++ [minCpuRatioFilter]) from by
    unfold filtersForAttr; rw [if_neg (by decide), if_pos rfl]]
  dsimp only
  rw [RVevalMem]
  dsimp only
  rw [if_neg (by decide)]
  rw [show (if ("aws" : String) = "oracle" then
      { reqX with onDemandPct := 100 } else reqX) = reqX from
    if_neg (by decide)]
  rw [RNPevalMem]

theorem clusterEval :
    RecommendClusterStd 1 "aws" [] [sampleVm] [sampleVm] reqX =
      some [⟨sampleVm, 0, regular⟩, ⟨sampleVm, 1, spot⟩] := by
  unfold RecommendClusterStd
  rw [stepEvalCpu]
  dsimp only
  rw [stepEvalMem]
  dsimp only
  rw [if_neg (by decide)]
  have hpp : planPrice [⟨sampleVm, 0, regular⟩, ⟨sampleVm, 1, spot⟩] = 1 := by
    norm_num [planPrice, NodePool.poolPrice, sampleVm, regular, spot]
  unfold findCheapestNodePoolSet
  simp only [List.foldl_cons, List.foldl_nil, hpp]
  norm_num

/-- C1 (witness): the engine run on the sample request covers both
requested totals. -/
theorem C1_capacity_witness :
    reqX.sumCpu ≤ planAttrSum
      [⟨sampleVm, 0, regular⟩, ⟨sampleVm, 1, spot⟩] Cpu ∧
    reqX.sumMem ≤ planAttrSum
      [⟨sampleVm, 0, regular⟩, ⟨sampleVm, 1, spot⟩] Memory :=
  C1_capacity 1 "aws" [] [sampleVm] [sampleVm] reqX
    [⟨sampleVm, 0, regular⟩, ⟨sampleVm, 1, spot⟩]
    (by norm_num [reqX]) (by norm_num [reqX])
    (by norm_num [reqX]) (by norm_num [reqX])
    (by
      intro vm hvm
      rw [show [sampleVm] ++ [sampleVm] = [sampleVm, sampleVm] from rfl] at hvm
      rcases List.mem_cons.mp hvm with rfl | hvm2
      · exact ⟨by norm_num [sampleVm], by norm_num [sampleVm]⟩
      · rw [List.mem_singleton] at hvm2
        subst hvm2
        exact ⟨by norm_num [sampleVm], by norm_num [sampleVm]⟩)
    clusterEval
